import Mathlib

/-!
Verification of the DocuChain hash-chain integrity ledger and preview-envelope
protocol, as implemented in
  backend/src/modules/blockchain/services/blockchain.service.ts
  backend/src/modules/documents/utils/preview-envelope.ts
  backend/src/modules/documents/controllers/documents.controller.ts (signDocument)
  backend/src/utils/hash.ts
  backend/src/routes (anonymized blockchain export route)

Conventions of the embedding:
* Byte buffers (Node `Buffer`) are `List Nat`, each entry < 256.
* JavaScript runtime values that can appear in a metadata bag are modelled by
  the inductive type `Jv` (undefined, null, boolean, number, string, array,
  object).  Numbers are modelled as integers: no claim depends on float
  formatting.  Objects are entry lists in insertion order, as JS objects are
  for non-numeric keys.
* Node library primitives used by the source (crypto SHA-256/HMAC, base64,
  UTF-8 codecs, `JSON.stringify` / `JSON.parse`) are not repository code; they
  are modelled here by executable reference implementations of their
  documented behaviour.
* Clock readings are modelled as their ISO-8601 renderings, supplied as
  arguments.  `createBlock` reads the clock twice: the `timestamp` it hashes
  is one `new Date().toISOString()`, while the persisted `created_at` column
  is stamped by Sequelize (`timestamps: true`, `createdAt: 'created_at'`)
  from a second `new Date()` inside `DocumentBlock.create` — the call site
  passes no `created_at`.  The model therefore takes both instants as
  separate arguments.  Verification re-renders `created_at` with
  `.toISOString()`.  Chronological store order (`ORDER BY created_at`) is
  modelled as list order, the append order, matching the spec assumption of
  a monotone clock.
-/

set_option maxRecDepth 100000

/-! ### SHA-256 over byte lists (reference implementation of the crypto digest) -/

def w32 (n : Nat) : Nat := n % 4294967296

def rotr32 (k x : Nat) : Nat := w32 ((x >>> k) ||| (x <<< (32 - k)))

def shaK : List Nat :=
  [1116352408, 1899447441, 3049323471, 3921009573, 961987163, 1508970993,
   2453635748, 2870763221, 3624381080, 310598401, 607225278, 1426881987,
   1925078388, 2162078206, 2614888103, 3248222580, 3835390401, 4022224774,
   264347078, 604807628, 770255983, 1249150122, 1555081692, 1996064986,
   2554220882, 2821834349, 2952996808, 3210313671, 3336571891, 3584528711,
   113926993, 338241895, 666307205, 773529912, 1294757372, 1396182291,
   1695183700, 1986661051, 2177026350, 2456956037, 2730485921, 2820302411,
   3259730800, 3345764771, 3516065817, 3600352804, 4094571909, 275423344,
   430227734, 506948616, 659060556, 883997877, 958139571, 1322822218,
   1537002063, 1747873779, 1955562222, 2024104815, 2227730452, 2361852424,
   2428436474, 2756734187, 3204031479, 3329325298]

def padMessage (msg : List Nat) : List Nat :=
  let len := msg.length
  let zeros := (64 - ((len + 9) % 64)) % 64
  let bitLen := len * 8
  msg ++ 0x80 :: List.replicate zeros 0 ++
    [bitLen / 72057594037927936 % 256, bitLen / 281474976710656 % 256,
     bitLen / 1099511627776 % 256, bitLen / 4294967296 % 256,
     bitLen / 16777216 % 256, bitLen / 65536 % 256, bitLen / 256 % 256, bitLen % 256]

def toWords : List Nat → List Nat
  | b0 :: b1 :: b2 :: b3 :: rest => (((b0 * 256 + b1) * 256 + b2) * 256 + b3) :: toWords rest
  | _ => []

/-- Splits a byte list into 64-byte blocks.  The first argument is fuel, always
called with the length of the list, which bounds the number of blocks. -/
def chunkAux : Nat → List Nat → List (List Nat)
  | _, [] => []
  | 0, bs => [bs]
  | fuel + 1, b :: rest => (b :: rest).take 64 :: chunkAux fuel ((b :: rest).drop 64)

def chunk64 (bs : List Nat) : List (List Nat) := chunkAux bs.length bs

def smallSigma0 (x : Nat) : Nat := (rotr32 7 x) ^^^ (rotr32 18 x) ^^^ (x >>> 3)
def smallSigma1 (x : Nat) : Nat := (rotr32 17 x) ^^^ (rotr32 19 x) ^^^ (x >>> 10)
def bigSigma0 (x : Nat) : Nat := (rotr32 2 x) ^^^ (rotr32 13 x) ^^^ (rotr32 22 x)
def bigSigma1 (x : Nat) : Nat := (rotr32 6 x) ^^^ (rotr32 11 x) ^^^ (rotr32 25 x)

def extendSchedule (w : List Nat) : Nat → List Nat
  | 0 => w
  | n + 1 =>
    let w2 := extendSchedule w n
    let i := w2.length
    w2 ++ [w32 (smallSigma1 (w2.getD (i - 2) 0) + w2.getD (i - 7) 0 +
      smallSigma0 (w2.getD (i - 15) 0) + w2.getD (i - 16) 0)]

structure ShaState where
  a : Nat
  b : Nat
  c : Nat
  d : Nat
  e : Nat
  f : Nat
  g : Nat
  h : Nat

def shaRound (st : ShaState) (kw : Nat × Nat) : ShaState :=
  let t1 := w32 (st.h + bigSigma1 st.e + ((st.e &&& st.f) ^^^ ((4294967295 - st.e) &&& st.g)) +
    kw.1 + kw.2)
  let t2 := w32 (bigSigma0 st.a + ((st.a &&& st.b) ^^^ (st.a &&& st.c) ^^^ (st.b &&& st.c)))
  { a := w32 (t1 + t2), b := st.a, c := st.b, d := st.c,
    e := w32 (st.d + t1), f := st.e, g := st.f, h := st.g }

def compress (hs : List Nat) (block : List Nat) : List Nat :=
  let ws := extendSchedule (toWords block) 48
  let init : ShaState :=
    { a := hs.getD 0 0, b := hs.getD 1 0, c := hs.getD 2 0, d := hs.getD 3 0,
      e := hs.getD 4 0, f := hs.getD 5 0, g := hs.getD 6 0, h := hs.getD 7 0 }
  let st := (List.zip shaK ws).foldl shaRound init
  [w32 (hs.getD 0 0 + st.a), w32 (hs.getD 1 0 + st.b), w32 (hs.getD 2 0 + st.c),
   w32 (hs.getD 3 0 + st.d), w32 (hs.getD 4 0 + st.e), w32 (hs.getD 5 0 + st.f),
   w32 (hs.getD 6 0 + st.g), w32 (hs.getD 7 0 + st.h)]

def sha256Words (msg : List Nat) : List Nat :=
  (chunk64 (padMessage msg)).foldl compress
    [1779033703, 3144134277, 1013904242, 2773480762,
     1359893119, 2600822924, 528734635, 1541459225]

def sha256Bytes (msg : List Nat) : List Nat :=
  (sha256Words msg).flatMap (fun w => [w / 16777216 % 256, w / 65536 % 256, w / 256 % 256, w % 256])

def hexDigit (n : Nat) : Char :=
  if n < 10 then Char.ofNat (48 + n) else Char.ofNat (87 + n)

def wordHex (w : Nat) : List Char :=
  [hexDigit (w / 268435456 % 16), hexDigit (w / 16777216 % 16), hexDigit (w / 1048576 % 16),
   hexDigit (w / 65536 % 16), hexDigit (w / 4096 % 16), hexDigit (w / 256 % 16),
   hexDigit (w / 16 % 16), hexDigit (w % 16)]

/-- Hex digest of SHA-256, as produced by crypto `createHash('sha256').digest('hex')`. -/
def sha256Hex (msg : List Nat) : String :=
  String.mk ((sha256Words msg).flatMap wordHex)

/-- HMAC-SHA256 (RFC 2104) with hex output, the model of crypto
`createHmac('sha256', key).update(msg).digest('hex')`. -/
def hmacSha256Hex (key msg : List Nat) : String :=
  let k0 := if key.length > 64 then sha256Bytes key else key
  let kPadded := k0 ++ List.replicate (64 - k0.length) 0
  let ipad := kPadded.map (fun b => b ^^^ 0x36)
  let opad := kPadded.map (fun b => b ^^^ 0x5c)
  sha256Hex (opad ++ sha256Bytes (ipad ++ msg))

/-! ### UTF-8 encoding and decoding -/

/-- Encodes a single Unicode scalar value as UTF-8 bytes. -/
def utf8EncodeChar (c : Char) : List Nat :=
  let n := c.toNat
  if n < 0x80 then [n]
  else if n < 0x800 then [0xc0 + n / 64, 0x80 + n % 64]
  else if n < 0x10000 then [0xe0 + n / 4096, 0x80 + n / 64 % 64, 0x80 + n % 64]
  else [0xf0 + n / 262144, 0x80 + n / 4096 % 64, 0x80 + n / 64 % 64, 0x80 + n % 64]

/-- UTF-8 bytes of a string, the model of `Buffer.from(s, 'utf-8')`. -/
def utf8Bytes (s : String) : List Nat := s.data.flatMap utf8EncodeChar

def isCont (b : Nat) : Bool := 0x80 ≤ b && b < 0xc0

/-- Decodes UTF-8 bytes to characters, replacing malformed sequences with
U+FFFD, the model of `buffer.toString('utf-8')`.  The first argument is fuel,
always called with the byte count, which bounds the number of characters. -/
def utf8DecodeAux : Nat → List Nat → List Char
  | 0, _ => []
  | _, [] => []
  | fuel + 1, b :: rest =>
    if b < 0x80 then Char.ofNat b :: utf8DecodeAux fuel rest
    else if b < 0xc2 then Char.ofNat 0xfffd :: utf8DecodeAux fuel rest
    else if b < 0xe0 then
      match rest with
      | b1 :: rest1 =>
        if isCont b1 then Char.ofNat ((b - 0xc0) * 64 + (b1 - 0x80)) :: utf8DecodeAux fuel rest1
        else Char.ofNat 0xfffd :: utf8DecodeAux fuel (b1 :: rest1)
      | [] => [Char.ofNat 0xfffd]
    else if b < 0xf0 then
      match rest with
      | b1 :: b2 :: rest2 =>
        if isCont b1 && isCont b2 then
          let n := (b - 0xe0) * 4096 + (b1 - 0x80) * 64 + (b2 - 0x80)
          (if 0xd800 ≤ n && n < 0xe000 then Char.ofNat 0xfffd else Char.ofNat n) ::
            utf8DecodeAux fuel rest2
        else Char.ofNat 0xfffd :: utf8DecodeAux fuel (b1 :: b2 :: rest2)
      | _ => [Char.ofNat 0xfffd]
    else if b < 0xf5 then
      match rest with
      | b1 :: b2 :: b3 :: rest3 =>
        if isCont b1 && isCont b2 && isCont b3 then
          let n := (b - 0xf0) * 262144 + (b1 - 0x80) * 4096 + (b2 - 0x80) * 64 + (b3 - 0x80)
          (if n < 0x110000 then Char.ofNat n else Char.ofNat 0xfffd) :: utf8DecodeAux fuel rest3
        else Char.ofNat 0xfffd :: utf8DecodeAux fuel (b1 :: b2 :: b3 :: rest3)
      | _ => [Char.ofNat 0xfffd]
    else Char.ofNat 0xfffd :: utf8DecodeAux fuel rest

def utf8Decode (bs : List Nat) : String := String.mk (utf8DecodeAux bs.length bs)

/-! ### Base64 (the model of Buffer base64 conversion) -/

def b64Alphabet : List Char :=
  "ABCDEFGHIJKLMNOPQRSTUVWXYZabcdefghijklmnopqrstuvwxyz0123456789+/".data

def b64Char (n : Nat) : Char := b64Alphabet.getD n 'A'

def base64EncodeChars : List Nat → List Char
  | [] => []
  | [b0] => [b64Char (b0 / 4), b64Char (b0 % 4 * 16), '=', '=']
  | [b0, b1] => [b64Char (b0 / 4), b64Char (b0 % 4 * 16 + b1 / 16), b64Char (b1 % 16 * 4), '=']
  | b0 :: b1 :: b2 :: rest =>
    b64Char (b0 / 4) :: b64Char (b0 % 4 * 16 + b1 / 16) ::
      b64Char (b1 % 16 * 4 + b2 / 64) :: b64Char (b2 % 64) :: base64EncodeChars rest

/-- Base64 text of a byte list, the model of `buffer.toString('base64')`. -/
def base64Encode (bs : List Nat) : String := String.mk (base64EncodeChars bs)

def b64Value (c : Char) : Option Nat :=
  if 'A' ≤ c && c ≤ 'Z' then some (c.toNat - 65)
  else if 'a' ≤ c && c ≤ 'z' then some (c.toNat - 97 + 26)
  else if '0' ≤ c && c ≤ '9' then some (c.toNat - 48 + 52)
  else if c = '+' then some 62
  else if c = '/' then some 63
  else none

/-- Base64 decoding of a character list in 4-character groups.  Node base64
decoding never throws; failures surface later as JSON parse failures, so an
`Option` result models the whole forgiving pipeline adequately. -/
def base64DecodeChars : List Char → Option (List Nat)
  | [] => some []
  | [c0, c1, '=', '='] =>
    match b64Value c0, b64Value c1 with
    | some v0, some v1 => if v1 % 16 = 0 then some [v0 * 4 + v1 / 16] else none
    | _, _ => none
  | [c0, c1, c2, '='] =>
    match b64Value c0, b64Value c1, b64Value c2 with
    | some v0, some v1, some v2 =>
      if v2 % 4 = 0 then some [v0 * 4 + v1 / 16, v1 % 16 * 16 + v2 / 4] else none
    | _, _, _ => none
  | c0 :: c1 :: c2 :: c3 :: rest =>
    match b64Value c0, b64Value c1, b64Value c2, b64Value c3, base64DecodeChars rest with
    | some v0, some v1, some v2, some v3, some tail =>
      some ((v0 * 4 + v1 / 16) :: (v1 % 16 * 16 + v2 / 4) :: (v2 % 4 * 64 + v3) :: tail)
    | _, _, _, _, _ => none
  | _ => none

def base64Decode (s : String) : Option (List Nat) := base64DecodeChars s.data

/-! ### JS string trim -/

def isJsSpace (c : Char) : Bool :=
  c = ' ' || c = '\t' || c = '\n' || c = '\r' || c = Char.ofNat 11 || c = Char.ofNat 12

/-- Model of `String.prototype.trim` restricted to ASCII whitespace; the only
strings it is applied to are base64 slices, where it is the identity. -/
def jsTrim (s : String) : String :=
  String.mk (((s.data.dropWhile isJsSpace).reverse.dropWhile isJsSpace).reverse)

/-! ### String ordering (JS default Array sort comparator on strings) -/

def charListLe : List Char → List Char → Bool
  | [], _ => true
  | _ :: _, [] => false
  | a :: as2, b :: bs =>
    if a.toNat < b.toNat then true
    else if b.toNat < a.toNat then false
    else charListLe as2 bs

/-- Lexicographic string comparison by code point, the model of the default
`Array.prototype.sort` comparator (which compares UTF-16 code units; the two
agree on all strings without supplementary-plane characters, and every key
sorted by the source is produced from JSON metadata keys). -/
def strLeB (a b : String) : Bool := charListLe a.data b.data

/-- Model of `Object.keys(value).sort()`. -/
def sortKeys (ks : List String) : List String :=
  List.insertionSort (fun a b => strLeB a b = true) ks

/-! ### JSON scalar encoding pieces shared by the serializers -/

/-- One character of a JSON string body, escaped as `JSON.stringify` escapes it. -/
def escapeJsonChar (c : Char) : List Char :=
  if c = '"' then ['\\', '"']
  else if c = '\\' then ['\\', '\\']
  else if c = '\n' then ['\\', 'n']
  else if c = '\r' then ['\\', 'r']
  else if c = '\t' then ['\\', 't']
  else if c = Char.ofNat 8 then ['\\', 'b']
  else if c = Char.ofNat 12 then ['\\', 'f']
  else if c.toNat < 32 then ['\\', 'u', '0', '0', hexDigit (c.toNat / 16), hexDigit (c.toNat % 16)]
  else [c]

/-- Model of `JSON.stringify` on a string value. -/
def jsonQuote (s : String) : String :=
  String.mk ('"' :: (s.data.flatMap escapeJsonChar ++ ['"']))

def digitChar (d : Nat) : Char := Char.ofNat (48 + d)

/-- Decimal digits of a natural number, most significant first, prepended to
`acc`.  The first argument is fuel, always called with the number itself. -/
def natCharsAux : Nat → Nat → List Char → List Char
  | 0, n, acc => digitChar n :: acc
  | fuel + 1, n, acc =>
    if n < 10 then digitChar n :: acc
    else natCharsAux fuel (n / 10) (digitChar (n % 10) :: acc)

def natChars (n : Nat) : List Char := natCharsAux n n []

/-- Decimal digit characters of an integer, the model of JS number-to-string
conversion on integral values. -/
def intChars (i : Int) : List Char :=
  if i < 0 then '-' :: natChars i.natAbs else natChars i.natAbs

def intStr (i : Int) : String := String.mk (intChars i)

def natStr (n : Nat) : String := String.mk (natChars n)

/-! ### The JS value model -/

/-- Model of a JavaScript runtime value as far as the metadata bags, envelopes
and parsed JSON of this code base are concerned.  `undef` is the JS value
`undefined`; object entries are kept in insertion order with their keys. -/
inductive Jv where
  | undef
  | jnull
  | bool (b : Bool)
  | num (n : Int)
  | str (s : String)
  | arr (elems : List Jv)
  | obj (entries : List (String × Jv))

/-- Comma-joining as `Array.prototype.join` does it, written recursively. -/
def joinSep (sep : String) : List String → String
  | [] => ""
  | [x] => x
  | x :: y :: rest => x ++ sep ++ joinSep sep (y :: rest)

/-- First-match association lookup, the model of reading a property of a plain
JS object built without duplicate keys. -/
def assocLookup (k : String) : List (String × String) → Option String
  | [] => none
  | (k1, v) :: rest => if k1 = k then some v else assocLookup k rest

mutual

/-- Model of `deterministicStringify` from `backend/src/utils/hash.ts` (the
copy in `preview-envelope.ts` is identical).  A `none` result is the JS value
`undefined`, which `JSON.stringify` returns on `undefined` input — the
non-object branch is `JSON.stringify(value)`.  The source renders an object by
sorting `Object.keys(value)` and reading `value[key]` inside a template
literal, where an `undefined` rendering coerces to the text `undefined`; here
the entries are rendered first (`detEntries`) and then read back per sorted
key, which is the same function because a JS object holds each key once. -/
def deterministicStringify : Jv → Option String
  | .undef => none
  | .jnull => some "null"
  | .bool b => some (if b then "true" else "false")
  | .num n => some (intStr n)
  | .str s => some (jsonQuote s)
  | .arr xs => some ("[" ++ joinSep "," (detArray xs) ++ "]")
  | .obj fs =>
    some ("\x7b" ++ joinSep ","
      ((sortKeys (fs.map Prod.fst)).map
        (fun k => jsonQuote k ++ ":" ++ ((assocLookup k (detEntries fs)).getD "undefined")))
      ++ "\x7d")

/-- Array elements rendered for the `.join(',')` in the array branch: a JS
`undefined` element renders as the empty string there. -/
def detArray : List Jv → List String
  | [] => []
  | v :: vs => ((deterministicStringify v).getD "") :: detArray vs

/-- Object entries rendered for the template literal in the object branch: a
JS `undefined` value renders as the text `undefined` there. -/
def detEntries : List (String × Jv) → List (String × String)
  | [] => []
  | (k, v) :: rest => (k, (deterministicStringify v).getD "undefined") :: detEntries rest

end

/-- Total wrapper for call sites that pass an object (the only shapes the
source ever hashes); `deterministicStringify` is `some` on every non-`undef`
value. -/
def deterministicStringifyD (v : Jv) : String := (deterministicStringify v).getD "undefined"

mutual

/-- Model of the metadata normalization `JSON.parse(JSON.stringify(value))`:
`undefined` has no JSON encoding (`none`), object entries with `undefined`
values are dropped, `undefined` array elements become `null`. -/
def normJv : Jv → Option Jv
  | .undef => none
  | .jnull => some .jnull
  | .bool b => some (.bool b)
  | .num n => some (.num n)
  | .str s => some (.str s)
  | .arr xs => some (.arr (normArray xs))
  | .obj fs => some (.obj (normEntries fs))

def normArray : List Jv → List Jv
  | [] => []
  | v :: vs => ((normJv v).getD .jnull) :: normArray vs

def normEntries : List (String × Jv) → List (String × Jv)
  | [] => []
  | (k, v) :: rest =>
    match normJv v with
    | some w => (k, w) :: normEntries rest
    | none => normEntries rest

end

mutual

/-- Compact JSON text of a JSON-representable value, as `JSON.stringify`
prints one: entries in insertion order, no whitespace.  Only ever applied to
outputs of `normJv`, which contain no `undef`; the `undef` equation is an
arbitrary unreachable value. -/
def printJson : Jv → List Char
  | .undef => 'n' :: ['u', 'l', 'l']
  | .jnull => 'n' :: ['u', 'l', 'l']
  | .bool true => 't' :: ['r', 'u', 'e']
  | .bool false => 'f' :: ['a', 'l', 's', 'e']
  | .num n => intChars n
  | .str s => '"' :: (s.data.flatMap escapeJsonChar ++ ['"'])
  | .arr xs => '[' :: (printItems xs ++ [']'])
  | .obj fs => '\x7b' :: (printFields fs ++ ['\x7d'])

def printItems : List Jv → List Char
  | [] => []
  | v :: vs => printJson v ++ printMoreItems vs

def printMoreItems : List Jv → List Char
  | [] => []
  | v :: vs => ',' :: (printJson v ++ printMoreItems vs)

def printFields : List (String × Jv) → List Char
  | [] => []
  | (k, v) :: rest =>
    ('"' :: (k.data.flatMap escapeJsonChar ++ ['"'])) ++ ':' :: (printJson v ++ printMoreFields rest)

def printMoreFields : List (String × Jv) → List Char
  | [] => []
  | (k, v) :: rest =>
    ',' :: (('"' :: (k.data.flatMap escapeJsonChar ++ ['"'])) ++
      ':' :: (printJson v ++ printMoreFields rest))

end

/-- Model of `JSON.stringify`: drop the non-JSON parts (`normJv`), then print.
Returns `none` exactly when JS returns `undefined`. -/
def jsonStringify (v : Jv) : Option String :=
  (normJv v).map (fun u => String.mk (printJson u))

/-! ### JSON parsing (the model of JSON.parse) -/

def isJsonWs (c : Char) : Bool := c = ' ' || c = '\t' || c = '\n' || c = '\r'

def skipJsonWs : List Char → List Char
  | [] => []
  | c :: cs => if isJsonWs c then skipJsonWs cs else c :: cs

def hexNibble (c : Char) : Option Nat :=
  if '0' ≤ c && c ≤ '9' then some (c.toNat - 48)
  else if 'a' ≤ c && c ≤ 'f' then some (c.toNat - 87)
  else if 'A' ≤ c && c ≤ 'F' then some (c.toNat - 55)
  else none

def escapeCode : Char → Option Char
  | 'n' => some '\n'
  | 'b' => some (Char.ofNat 8)
  | '"' => some '"'
  | 't' => some '\t'
  | '/' => some '/'
  | 'f' => some (Char.ofNat 12)
  | '\\' => some '\\'
  | 'r' => some '\r'
  | _ => none

/-- Parses a JSON string body after the opening quote, structurally on the
input.  Model restriction: a `\u` escape whose code is a surrogate becomes
U+FFFD instead of combining with its partner (a Lean `Char` cannot carry a
lone surrogate); the serializers here never escape anything above U+001F, so
no self-produced text contains such an escape. -/
def parseStringBody (acc : List Char) : List Char → Option (String × List Char)
  | '"' :: rest => some (String.mk acc.reverse, rest)
  | '\\' :: 'u' :: h1 :: h2 :: h3 :: h4 :: rest =>
    match hexNibble h1, hexNibble h2, hexNibble h3, hexNibble h4 with
    | some n1, some n2, some n3, some n4 =>
      let n := ((n1 * 16 + n2) * 16 + n3) * 16 + n4
      parseStringBody
        ((if 0xd800 ≤ n && n < 0xe000 then Char.ofNat 0xfffd else Char.ofNat n) :: acc) rest
    | _, _, _, _ => none
  | '\\' :: e :: rest =>
    match escapeCode e with
    | some c => parseStringBody (c :: acc) rest
    | none => none
  | c :: rest => if c.toNat < 32 then none else parseStringBody (c :: acc) rest
  | [] => none

def isDigitChar (c : Char) : Bool := 48 ≤ c.toNat && c.toNat ≤ 57

def spanDigits : List Char → List Char × List Char
  | [] => ([], [])
  | c :: cs =>
    if isDigitChar c then
      let (ds, rest) := spanDigits cs
      (c :: ds, rest)
    else ([], c :: cs)

def digitsToNat (ds : List Char) : Nat :=
  ds.foldl (fun acc c => acc * 10 + (c.toNat - 48)) 0

/-- Parses a JSON numeric literal.  Restriction of the model: only integral
literals (no fraction or exponent part), matching the `Jv.num` model of JS
numbers; no number this code base serializes carries a fraction. -/
def parseNumber (cs : List Char) : Option (Jv × List Char) :=
  let signSplit : Bool × List Char := match cs with
    | '-' :: r => (true, r)
    | _ => (false, cs)
  let ds := (spanDigits signSplit.2).1
  let rest := (spanDigits signSplit.2).2
  if ds = [] then none
  else
    match rest with
    | '.' :: _ => none
    | 'e' :: _ => none
    | 'E' :: _ => none
    | _ =>
      some (.num (if signSplit.1 then -(digitsToNat ds : Int) else (digitsToNat ds : Int)), rest)

mutual

/-- Parses one JSON value.  The first argument is fuel bounding the number of
parsing steps; `jsonParse` below supplies one more than the input length,
which every chain of nested calls stays under because each call consumes at
least one character. -/
def parseJv : Nat → List Char → Option (Jv × List Char)
  | 0, _ => none
  | fuel + 1, cs =>
    match skipJsonWs cs with
    | 'n' :: 'u' :: 'l' :: 'l' :: r => some (.jnull, r)
    | 't' :: 'r' :: 'u' :: 'e' :: r => some (.bool true, r)
    | 'f' :: 'a' :: 'l' :: 's' :: 'e' :: r => some (.bool false, r)
    | '"' :: r => (parseStringBody [] r).map (fun p => (.str p.1, p.2))
    | '[' :: r =>
      match skipJsonWs r with
      | ']' :: r1 => some (.arr [], r1)
      | r1 => (parseItems fuel r1).map (fun p => (.arr p.1, p.2))
    | '\x7b' :: r =>
      match skipJsonWs r with
      | '\x7d' :: r1 => some (.obj [], r1)
      | r1 => (parseFields fuel r1).map (fun p => (.obj p.1, p.2))
    | cs1 => parseNumber cs1

def parseItems : Nat → List Char → Option (List Jv × List Char)
  | 0, _ => none
  | fuel + 1, cs =>
    match parseJv fuel cs with
    | none => none
    | some (v, r) =>
      match skipJsonWs r with
      | ',' :: r1 => (parseItems fuel r1).map (fun p => (v :: p.1, p.2))
      | ']' :: r1 => some ([v], r1)
      | _ => none

def parseFields : Nat → List Char → Option (List (String × Jv) × List Char)
  | 0, _ => none
  | fuel + 1, cs =>
    match skipJsonWs cs with
    | '"' :: r =>
      match parseStringBody [] r with
      | none => none
      | some (k, r1) =>
        match skipJsonWs r1 with
        | ':' :: r2 =>
          match parseJv fuel r2 with
          | none => none
          | some (v, r3) =>
            match skipJsonWs r3 with
            | ',' :: r4 => (parseFields fuel r4).map (fun p => ((k, v) :: p.1, p.2))
            | '\x7d' :: r4 => some ([(k, v)], r4)
            | _ => none
        | _ => none
    | _ => none

end

/-- Model of `JSON.parse`: `none` is a thrown `SyntaxError`. -/
def jsonParse (s : String) : Option Jv :=
  match parseJv (s.data.length + 1) s.data with
  | some (v, r) => if skipJsonWs r = [] then some v else none
  | none => none

/-! ### Decidable equality of values -/

mutual

def jvBeq : Jv → Jv → Bool
  | .undef, .undef => true
  | .jnull, .jnull => true
  | .bool a, .bool b => a = b
  | .num a, .num b => a = b
  | .str a, .str b => a = b
  | .arr a, .arr b => jvListBeq a b
  | .obj a, .obj b => jvObjBeq a b
  | _, _ => false

def jvListBeq : List Jv → List Jv → Bool
  | [], [] => true
  | a :: as2, b :: bs => jvBeq a b && jvListBeq as2 bs
  | _, _ => false

def jvObjBeq : List (String × Jv) → List (String × Jv) → Bool
  | [], [] => true
  | (k1, v1) :: r1, (k2, v2) :: r2 => k1 = k2 && jvBeq v1 v2 && jvObjBeq r1 r2
  | _, _ => false

end

mutual

theorem jvBeq_eq : ∀ a b : Jv, jvBeq a b = true ↔ a = b
  | .undef, b => by cases b <;> simp [jvBeq]
  | .jnull, b => by cases b <;> simp [jvBeq]
  | .bool x, b => by cases b <;> simp [jvBeq]
  | .num x, b => by cases b <;> simp [jvBeq]
  | .str x, b => by cases b <;> simp [jvBeq]
  | .arr xs, b => by
    cases b <;> simp [jvBeq]
    exact jvListBeq_eq xs _
  | .obj fs, b => by
    cases b <;> simp [jvBeq]
    exact jvObjBeq_eq fs _

theorem jvListBeq_eq : ∀ a b : List Jv, jvListBeq a b = true ↔ a = b
  | [], b => by cases b <;> simp [jvListBeq]
  | x :: xs, b => by
    cases b with
    | nil => simp [jvListBeq]
    | cons y ys =>
      simp only [jvListBeq, Bool.and_eq_true, List.cons.injEq, jvBeq_eq x y, jvListBeq_eq xs ys]

theorem jvObjBeq_eq : ∀ a b : List (String × Jv), jvObjBeq a b = true ↔ a = b
  | [], b => by cases b <;> simp [jvObjBeq]
  | (k, v) :: r, b => by
    cases b with
    | nil => simp [jvObjBeq]
    | cons q qs =>
      obtain ⟨k2, v2⟩ := q
      simp only [jvObjBeq, Bool.and_eq_true, List.cons.injEq, Prod.mk.injEq, decide_eq_true_eq,
        jvBeq_eq v v2, jvObjBeq_eq r qs, and_assoc]

end

instance : DecidableEq Jv := fun a b => decidable_of_iff _ (jvBeq_eq a b)

/-! ### Hashing API of utils/hash.ts and preview-envelope.ts -/

/-- Model of `calculateHash` from `backend/src/utils/hash.ts`: SHA-256 hex
digest of the UTF-8 bytes of a string (`crypto.createHash('sha256')`). -/
def calculateHash (data : String) : String := sha256Hex (utf8Bytes data)

/-- Model of `calculateObjectHash` from `backend/src/utils/hash.ts`:
`calculateHash(deterministicStringify(value))`.  Every call site passes an
object, on which `deterministicStringify` is defined (`some`); the `getD`
default covers the `undefined` case on which the JS digest would throw. -/
def calculateObjectHash (value : Jv) : String :=
  calculateHash (deterministicStringifyD value)

/-- Model of `hashBuffer` from `preview-envelope.ts`: SHA-256 hex digest of
raw bytes. -/
def hashBuffer (buffer : List Nat) : String := sha256Hex buffer

/-- Model of `hashMetadata` from `preview-envelope.ts`: digest of the
deterministic encoding of the metadata object. -/
def hashMetadata (metadata : List (String × Jv)) : String :=
  calculateHash (deterministicStringifyD (.obj metadata))

/-! ### The blockchain service (blockchain.service.ts)

A persisted `document_blocks` row.  `created_at` is the creation instant as
its ISO-8601 rendering (see the header comment); `metadata` is the JSONB
column as the entry list of the stored object.  A ledger is the list of
blocks in chronological (`created_at` ascending) order, which for blocks
produced by `createBlock` is append order. -/

structure Block where
  id : Nat
  document_id : String
  previous_hash : Option String
  hash : String
  content_hash : String
  signature_data : String
  metadata : List (String × Jv)
  created_at : String
deriving DecidableEq

/-- JS rendering of `previous_hash : string | null` inside the hashed record. -/
def prevHashJv : Option String → Jv
  | none => .jnull
  | some h => .str h

/-- The `blockData` record assembled by `createBlock` and the three verify
functions, in the literal field order of the source (the deterministic
serializer sorts keys, so only the contents matter). -/
def blockDataJv (documentId : String) (previousHash : Option String)
    (contentHash signatureData : String) (metadata : Jv) (timestamp : String) : Jv :=
  .obj [("document_id", .str documentId), ("previous_hash", prevHashJv previousHash),
    ("content_hash", .str contentHash), ("signature_data", .str signatureData),
    ("metadata", metadata), ("timestamp", .str timestamp)]

/-- The hash `createBlock` computes:
`calculateHash(deterministicStringify(blockData))`, with the metadata
normalized by `JSON.parse(JSON.stringify(metadata))`. -/
def blockDataHash (documentId : String) (previousHash : Option String)
    (contentHash signatureData : String) (metadata : List (String × Jv))
    (timestamp : String) : String :=
  calculateHash (deterministicStringifyD
    (blockDataJv documentId previousHash contentHash signatureData
      (.obj (normEntries metadata)) timestamp))

/-- Model of `createBlock`.  The chronologically last block
(`findOne` ordered by `created_at` descending) is the last list entry; `id`
is the autoincrement column.  Two distinct clock readings appear: `timestamp`
is the `new Date().toISOString()` the function hashes into the block, while
`createdAt` is the instant Sequelize stamps into the `created_at` column
during `DocumentBlock.create` (the call passes no `created_at` to the store;
the model is declared `timestamps: true, createdAt: 'created_at'`), taken
strictly later.  The raw `metadata` argument is persisted; only the hash uses
the normalized copy. -/
def createBlock (chain : List Block) (nextId : Nat) (documentId contentHash : String)
    (signatureData : String) (metadata : List (String × Jv)) (timestamp : String)
    (createdAt : String) : Block :=
  let previousHash := (chain.getLast?).map (fun b => b.hash)
  { id := nextId
    document_id := documentId
    previous_hash := previousHash
    hash := blockDataHash documentId previousHash contentHash signatureData metadata timestamp
    content_hash := contentHash
    signature_data := signatureData
    metadata := metadata
    created_at := createdAt }

/-- One append against the store: the created block joins the chain as the
new chronological tail. -/
def appendBlock (chain : List Block) (nextId : Nat) (documentId contentHash : String)
    (signatureData : String) (metadata : List (String × Jv)) (timestamp : String)
    (createdAt : String) : List Block :=
  chain ++
    [createBlock chain nextId documentId contentHash signatureData metadata timestamp createdAt]

/-- The hash `verifyBlockchain` recomputes for a stored block from its stored
fields, normalizing the stored metadata and rendering `created_at` back to an
ISO string. -/
def recomputedHash (b : Block) : String :=
  blockDataHash b.document_id b.previous_hash b.content_hash b.signature_data b.metadata
    b.created_at

/-- Errors `verifyBlockchain` pushes for one block: a hash mismatch error,
then the link error (against the previous block when there is one, the null
`previous_hash` rule for the first block otherwise). -/
def blockErrors (prev : Option Block) (b : Block) : List String :=
  (if recomputedHash b = b.hash then [] else ["Block " ++ natStr b.id ++ " has invalid hash"]) ++
    (match prev with
     | some p =>
       if b.previous_hash = some p.hash then []
       else ["Block " ++ natStr b.id ++ " has invalid previous hash link"]
     | none =>
       if b.previous_hash = none then []
       else ["First block " ++ natStr b.id ++ " should have null previous_hash"])

/-- The loop of `verifyBlockchain`: walks the blocks in chronological order,
carrying the preceding block (`i > 0` in the source is exactly a present
predecessor). -/
def verifyWalk (prev : Option Block) : List Block → List String
  | [] => []
  | b :: rest => blockErrors prev b ++ verifyWalk (some b) rest

/-- Model of `verifyBlockchain`: the full error list over every block, with
`valid` exactly when no error accumulated. -/
def verifyBlockchain (chain : List Block) : Bool × List String :=
  let errors := verifyWalk none chain
  (errors.isEmpty, errors)

/-! ### The anonymized export (blockchain.service.ts and its route) -/

/-- Model of `parseSignatureData`: `JSON.parse` the stored text and keep it
only if it is an array; an empty (falsy) string short-circuits to `[]`, and a
parse failure is caught to `[]`. -/
def parseSignatureData (data : String) : List Jv :=
  if data = "" then []
  else
    match jsonParse data with
    | some (.arr xs) => xs
    | _ => []

structure AnonymizedBlock where
  sequence : Nat
  block_hash : String
  previous_hash : Option String
  content_hash : String
  signature_count : Nat
  signature_hash : String
  metadata_keys : List String
  created_at : String
deriving DecidableEq

/-- The projection `getAnonymizedBlockchain` applies to the block at 0-based
position `index` of the chronological listing. -/
def anonymizeBlock (index : Nat) (b : Block) : AnonymizedBlock :=
  { sequence := index + 1
    block_hash := b.hash
    previous_hash := b.previous_hash
    content_hash := b.content_hash
    signature_count := (parseSignatureData b.signature_data).length
    signature_hash := calculateHash b.signature_data
    metadata_keys := b.metadata.map Prod.fst
    created_at := b.created_at }

/-- Helper for the position-indexed map of the export. -/
def anonymizeFrom (index : Nat) : List Block → List AnonymizedBlock
  | [] => []
  | b :: rest => anonymizeBlock index b :: anonymizeFrom (index + 1) rest

/-- Model of `getAnonymizedBlockchain`: the chronologically first `limit`
blocks (`findAll` ascending with `limit`), each mapped to its anonymized
projection with its 0-based listing index. -/
def getAnonymizedBlockchain (chain : List Block) (limit : Nat) : List AnonymizedBlock :=
  anonymizeFrom 0 (chain.take limit)

/-- Model of the export route: `parseInt(req.query.limit)` is `none` when it
yields `NaN`; otherwise the integer is clamped by
`Math.min(Math.max(limitParam, 1), 5000)`. -/
def anonymizedExportLimit (limitParam : Option Int) : Int :=
  match limitParam with
  | none => 1000
  | some n => min (max n 1) 5000

/-- Model of the anonymized export route handler body. -/
def anonymizedExportRoute (chain : List Block) (limitParam : Option Int) :
    List AnonymizedBlock :=
  getAnonymizedBlockchain chain (anonymizedExportLimit limitParam).toNat

/-! ### The preview envelope codec (preview-envelope.ts) -/

structure AttachPreviewResult where
  buffer : List Nat
  envelope : List (String × Jv)
  encodedEnvelope : String
deriving DecidableEq

def previewMarkerTag : String := "%%DocuChainPreview:"

/-- Model of `attachPreviewEnvelope`.  `hmacSecret` is `none` for an absent or
empty (falsy) secret; the clock reading for the envelope timestamp is passed
in.  The envelope entry list keeps the literal construction order of the
source, the `hmac` field joining last when a secret is configured. -/
def attachPreviewEnvelope (pdfBuffer : List Nat) (metadata : List (String × Jv))
    (hmacSecret : Option String) (timestamp : String) : AttachPreviewResult :=
  let envelopeBase : List (String × Jv) :=
    [("version", .num 1), ("algorithm", .str "sha256"),
     ("content_hash", .str (hashBuffer pdfBuffer)),
     ("metadata_hash", .str (hashMetadata metadata)),
     ("metadata", .obj metadata), ("timestamp", .str timestamp)]
  let envelope := match hmacSecret with
    | some secret =>
      envelopeBase ++ [("hmac", .str (hmacSha256Hex (utf8Bytes secret)
        (utf8Bytes (deterministicStringifyD (.obj envelopeBase)))))]
    | none => envelopeBase
  let encodedEnvelope := base64Encode (utf8Bytes ((jsonStringify (.obj envelope)).getD ""))
  { buffer := pdfBuffer ++ utf8Bytes ("\n" ++ previewMarkerTag ++ encodedEnvelope ++ "\n")
    envelope := envelope
    encodedEnvelope := encodedEnvelope }

/-- Model of `Buffer.prototype.lastIndexOf` on a byte pattern: the largest
position where the full pattern occurs. -/
def lastIndexOfSeq (pat bs : List Nat) : Option Nat :=
  (List.range (bs.length + 1)).reverse.find? (fun i => (bs.drop i).take pat.length = pat)

/-- Model of `Buffer.prototype.indexOf` for one byte from an offset. -/
def byteIndexFrom (b start : Nat) (bs : List Nat) : Option Nat :=
  ((bs.drop start).findIdx? (fun x => x = b)).map (fun i => start + i)

structure PreviewExtractionResult where
  envelope : Option Jv
  unsignedBuffer : List Nat
deriving DecidableEq

/-- Model of `extractPreviewEnvelope`.  The decode pipeline
(base64 → UTF-8 → `JSON.parse`) sits in a `try`; any failure returns the
original buffer with no envelope.  The extracted envelope is the raw parsed
JSON value — the source casts without validating its shape. -/
def extractPreviewEnvelope (pdfBuffer : List Nat) : PreviewExtractionResult :=
  let markerTag := utf8Bytes previewMarkerTag
  match lastIndexOfSeq markerTag pdfBuffer with
  | none => { envelope := none, unsignedBuffer := pdfBuffer }
  | some markerStart =>
    let base64Start := markerStart + markerTag.length
    let sliceEnd := (byteIndexFrom 0x0a base64Start pdfBuffer).getD pdfBuffer.length
    let base64Slice := (pdfBuffer.drop base64Start).take (sliceEnd - base64Start)
    let decoded := (base64Decode (jsTrim (utf8Decode base64Slice))).bind
      (fun bytes => jsonParse (utf8Decode bytes))
    match decoded with
    | none => { envelope := none, unsignedBuffer := pdfBuffer }
    | some envelope =>
      let c1 := markerStart
      let c2 := if 0 < c1 && pdfBuffer.getD (c1 - 1) 0 = 0x0a then c1 - 1 else c1
      let c3 := if 0 < c2 && pdfBuffer.getD (c2 - 1) 0 = 0x0d then c2 - 1 else c2
      { envelope := some envelope, unsignedBuffer := pdfBuffer.take c3 }

/-! ### Sign-time verification (documents.controller.ts, signDocument) -/

/-- Property read on a JS value: on an object the last binding of the key (a
`JSON.parse` object keeps the last duplicate), `undefined` (`none`) on
anything else or when absent. -/
def jvGetField : List (String × Jv) → String → Option Jv
  | [], _ => none
  | (k1, v) :: rest, k =>
    match jvGetField rest k with
    | some w => some w
    | none => if k1 = k then some v else none

def jvGet : Jv → String → Option Jv
  | .obj fs, k => jvGetField fs k
  | _, _ => none

/-- JS truthiness of a value in the model (no NaN: numbers are integers). -/
def jvTruthyV : Jv → Bool
  | .undef => false
  | .jnull => false
  | .bool b => b
  | .num n => n ≠ 0
  | .str s => s ≠ ""
  | .arr _ => true
  | .obj _ => true

def jvTruthy : Option Jv → Bool
  | none => false
  | some v => jvTruthyV v

/-- Model of the rest-spread `{ hmac: _hmac, ...envelopeWithoutHmac }`:
every own property except `hmac`, in order. -/
def jvRemoveField : Jv → String → Jv
  | .obj fs, k => .obj (fs.filter (fun p => p.1 ≠ k))
  | v, _ => v

/-- Model of `decodePreviewSignatureField` on a present raw field: base64,
then UTF-8, then `JSON.parse`, any failure caught to `null` (`none`). -/
def decodePreviewSignatureField (raw : String) : Option Jv :=
  (base64Decode raw).bind (fun bytes => jsonParse (utf8Decode bytes))

inductive SignVerdict where
  | envelopeMissing
  | hmacSecretMissing
  | hmacMismatch
  | contentMismatch
  | metadataMismatch
  | accepted
deriving DecidableEq

/-- The HMAC step of `signDocument`: `none` means the step passes (no `hmac`
set, or the recomputed HMAC matches); `some` is the rejection it returns. -/
def signHmacStep (hmacSecretKey : Option String) (envelope : Jv) : Option SignVerdict :=
  if jvTruthy (jvGet envelope "hmac") then
    match hmacSecretKey with
    | none => some .hmacSecretMissing
    | some secret =>
      let recomputed := hmacSha256Hex (utf8Bytes secret)
        (utf8Bytes (deterministicStringifyD (jvRemoveField envelope "hmac")))
      match jvGet envelope "hmac" with
      | some (.str h) => if h = recomputed then none else some .hmacMismatch
      | _ => some .hmacMismatch
  else none

/-- Model of the verification prefix of `signDocument` (controller lines
344-398): envelope selection (out-of-band `preview_signature` field wins via
`??`), the HMAC check, the content hash check against the unsigned bytes when
the envelope was embedded, and the metadata hash check.  `accepted` is
control reaching the ledger-append half of the handler. -/
def signDocumentCheck (hmacSecretKey : Option String) (pdfBuffer : List Nat)
    (previewSignatureField : Option String) : SignVerdict :=
  let ext := extractPreviewEnvelope pdfBuffer
  let provided : Option Jv := previewSignatureField.bind decodePreviewSignatureField
  let chosen : Option Jv := match provided with
    | some .jnull => ext.envelope
    | some .undef => ext.envelope
    | some v => some v
    | none => ext.envelope
  match chosen with
  | none => .envelopeMissing
  | some envelope =>
    if jvTruthyV envelope = false then .envelopeMissing
    else
      match signHmacStep hmacSecretKey envelope with
      | some verdict => verdict
      | none =>
        let bufferForHash := if jvTruthy ext.envelope then ext.unsignedBuffer else pdfBuffer
        let actualHash := sha256Hex bufferForHash
        if (match jvGet envelope "content_hash" with
            | some (.str h) => h = actualHash
            | _ => false) = false then .contentMismatch
        else
          let md : Jv := match jvGet envelope "metadata" with
            | none => .obj []
            | some .jnull => .obj []
            | some .undef => .obj []
            | some v => v
          let metadataHash := calculateObjectHash md
          if (match jvGet envelope "metadata_hash" with
              | some (.str h) => h = metadataHash
              | _ => false) = false then .metadataMismatch
          else .accepted

/-! ### Requests and chains built purely by append -/

structure AppendRequest where
  documentId : String
  contentHash : String
  signatureData : String
  metadata : List (String × Jv)
  timestamp : String
  createdAt : String

/-- Folds a sequence of append requests into a ledger, threading the
autoincrement id. -/
def buildChainAux (chain : List Block) (nextId : Nat) : List AppendRequest → List Block
  | [] => chain
  | r :: rs =>
    buildChainAux
      (appendBlock chain nextId r.documentId r.contentHash r.signatureData r.metadata
        r.timestamp r.createdAt)
      (nextId + 1) rs

/-- A ledger produced solely via `createBlock` appends, starting empty. -/
def buildChain (rs : List AppendRequest) : List Block := buildChainAux [] 1 rs

/-! ### Spec-side definitions used to state the theorems -/

/-- Every non-genesis block of a chain links to its predecessor. -/
def WellLinked (chain : List Block) : Prop :=
  ∀ i, (h : i + 1 < chain.length) →
    chain[i + 1].previous_hash = some ((chain.get (Fin.mk i (by omega))).hash)

/-! ### The verifyAll contract as the spec words it (for claim C7) -/

/-- Errors the spec assigns to the block at 0-based chronological position `i`:
a hash-mismatch error, then for `i > 0` a link error against `block[i-1]`, and
for `i = 0` the null-`previous_hash` genesis rule.  Modelled from the spec
text of `verifyAll` (§4.3). -/
def specErrorsAt (chain : List Block) (i : Nat) (b : Block) : List String :=
  (if recomputedHash b = b.hash then []
   else ["Block " ++ natStr b.id ++ " has invalid hash"]) ++
  (if i = 0 then
    (if b.previous_hash = none then []
     else ["First block " ++ natStr b.id ++ " should have null previous_hash"])
   else
    match chain[i - 1]? with
    | some p =>
      if b.previous_hash = some p.hash then []
      else ["Block " ++ natStr b.id ++ " has invalid previous hash link"]
    | none => [])

/-- The spec's walk over every block in chronological order, `i` counting the
position; no short-circuit, all errors concatenated in order. -/
def specWalk (chain : List Block) : Nat → List Block → List String
  | _, [] => []
  | i, b :: rest => specErrorsAt chain i b ++ specWalk chain (i + 1) rest

/-- Modelled from the spec: `verifyAll` returns `valid = (errors empty)` plus
the full error list. -/
def verifyAllSpec (chain : List Block) : Bool × List String :=
  ((specWalk chain 0 chain).isEmpty, specWalk chain 0 chain)

/-- Modelled from the spec: the chronological (oldest-first) projection that
strips `document_id`, raw `signature_data` and raw `metadata`, replacing them
with a 1-based `sequence`, the parsed signature count, the hash of the raw
`signature_data` string, and the metadata key names. -/
def anonymizedExportSpec (chain : List Block) (limit : Nat) : List AnonymizedBlock :=
  (chain.take limit).enum.map (fun p =>
    { sequence := p.1 + 1
      block_hash := p.2.hash
      previous_hash := p.2.previous_hash
      content_hash := p.2.content_hash
      signature_count := (parseSignatureData p.2.signature_data).length
      signature_hash := calculateHash p.2.signature_data
      metadata_keys := p.2.metadata.map Prod.fst
      created_at := p.2.created_at })

def keyLe (a b : String) : Prop := strLeB a b = true

instance : DecidableRel keyLe := fun a b => instDecidableEqBool (strLeB a b) true

/-! ### Recursive no-duplicate-keys predicate and canonical form -/

def distinctKeys : List String → Bool
  | [] => true
  | k :: rest => !(decide (k ∈ rest)) && distinctKeys rest

mutual

/-- Every mapping anywhere inside the value has pairwise-distinct keys, as JS
objects always do. -/
def jvNodupKeys : Jv → Bool
  | .undef => true
  | .jnull => true
  | .bool _ => true
  | .num _ => true
  | .str _ => true
  | .arr xs => jvListNodupKeys xs
  | .obj fs => distinctKeys (fs.map Prod.fst) && jvEntriesNodupKeys fs

def jvListNodupKeys : List Jv → Bool
  | [] => true
  | v :: vs => jvNodupKeys v && jvListNodupKeys vs

def jvEntriesNodupKeys : List (String × Jv) → Bool
  | [] => true
  | (_, v) :: rest => jvNodupKeys v && jvEntriesNodupKeys rest

end

mutual

/-- Canonical form of a value: every mapping's entries sorted by key.  Two
values are structurally equal regardless of key order exactly when their
canonical forms coincide; modelled from the spec notion of structural
equality. -/
def canonJv : Jv → Jv
  | .undef => .undef
  | .jnull => .jnull
  | .bool b => .bool b
  | .num n => .num n
  | .str s => .str s
  | .arr xs => .arr (canonList xs)
  | .obj fs => .obj (List.insertionSort (fun p q => strLeB p.1 q.1 = true) (canonEntries fs))

def canonList : List Jv → List Jv
  | [] => []
  | v :: vs => canonJv v :: canonList vs

def canonEntries : List (String × Jv) → List (String × Jv)
  | [] => []
  | (k, v) :: rest => (k, canonJv v) :: canonEntries rest

end

/-- Reference digit expansion, structurally convenient for reasoning; the
executable `natChars` is proved equal to it. -/
def natDigitsSpec (n : Nat) : List Char :=
  if n < 10 then [digitChar n] else natDigitsSpec (n / 10) ++ [digitChar (n % 10)]
termination_by n
decreasing_by exact Nat.div_lt_self (by omega) (by omega)

def numStop : List Char → Bool
  | [] => true
  | c :: _ => !(isDigitChar c || c = '.' || c = 'e' || c = 'E')

mutual

/-- The value contains no JS `undefined` anywhere. -/
def jvNoUndef : Jv → Bool
  | .undef => false
  | .jnull => true
  | .bool _ => true
  | .num _ => true
  | .str _ => true
  | .arr xs => jvListNoUndef xs
  | .obj fs => jvEntriesNoUndef fs

def jvListNoUndef : List Jv → Bool
  | [] => true
  | v :: vs => jvNoUndef v && jvListNoUndef vs

def jvEntriesNoUndef : List (String × Jv) → Bool
  | [] => true
  | (_, v) :: rest => jvNoUndef v && jvEntriesNoUndef rest

end

/-! ### Ledger lemmas -/

/-- The recomputed hash of a fresh block agrees with its stored hash exactly
on appends where the Sequelize `created_at` stamp renders to the same ISO
instant as the hashed `timestamp` read. -/
theorem recomputedHash_createBlock (chain : List Block) (nextId : Nat)
    (d c s : String) (m : List (String × Jv)) (t ca : String) (hca : ca = t) :
    recomputedHash (createBlock chain nextId d c s m t ca) =
      (createBlock chain nextId d c s m t ca).hash := by
  subst hca
  rfl

theorem verifyWalk_append (l1 l2 : List Block) (p : Option Block) :
    verifyWalk p (l1 ++ l2) = verifyWalk p l1 ++ verifyWalk (l1.getLast?.or p) l2 := by
  induction l1 generalizing p with
  | nil => simp [verifyWalk]
  | cons b l1 ih =>
    have harg : l1.getLast?.or (some b) = ((b :: l1).getLast?).or p := by
      cases l1 with
      | nil => rfl
      | cons b2 t =>
        rw [List.getLast?_cons_cons]
        cases h : (b2 :: t).getLast? with
        | none => simp [List.getLast?_eq_none_iff] at h
        | some v => rfl
    simp only [List.cons_append, verifyWalk, List.append_eq, ih (some b), List.append_assoc,
      harg]

theorem blockErrors_createBlock (chain : List Block) (nextId : Nat)
    (d c s : String) (m : List (String × Jv)) (t ca : String) (hca : ca = t) :
    blockErrors chain.getLast? (createBlock chain nextId d c s m t ca) = [] := by
  have hhash := recomputedHash_createBlock chain nextId d c s m t ca hca
  simp only [blockErrors, hhash, if_pos rfl, List.nil_append]
  cases hlast : chain.getLast? with
  | none => simp [createBlock, hlast]
  | some p => simp [createBlock, hlast]

theorem verifyWalk_appendBlock (chain : List Block) (nextId : Nat)
    (d c s : String) (m : List (String × Jv)) (t ca : String) (hca : ca = t) :
    verifyWalk none (appendBlock chain nextId d c s m t ca) = verifyWalk none chain := by
  unfold appendBlock
  rw [verifyWalk_append]
  simp [verifyWalk, blockErrors_createBlock chain nextId d c s m t ca hca, Option.or_none]

theorem wellLinked_appendBlock (chain : List Block) (nextId : Nat)
    (d c s : String) (m : List (String × Jv)) (t ca : String) (hw : WellLinked chain) :
    WellLinked (appendBlock chain nextId d c s m t ca) := by
  intro i h
  simp only [appendBlock, List.length_append, List.length_cons, List.length_nil] at h
  simp only [appendBlock, List.get_eq_getElem]
  by_cases hi : i + 1 < chain.length
  · have h0 : i < chain.length := by omega
    rw [List.getElem_append_left hi, List.getElem_append_left h0]
    exact hw i hi
  · have hlen : i + 1 = chain.length := by omega
    have hi0 : i < chain.length := by omega
    rw [List.getElem_concat_length chain _ _ hlen, List.getElem_append_left hi0]
    simp only [createBlock]
    have : chain.getLast? = some (chain.get (Fin.mk i hi0)) := by
      rw [List.getLast?_eq_getElem?, List.get_eq_getElem]
      have : chain.length - 1 = i := by omega
      rw [this, List.getElem?_eq_getElem hi0]
    rw [this]
    rfl

theorem buildChainAux_invariants : ∀ rs : List AppendRequest,
    (∀ r ∈ rs, r.createdAt = r.timestamp) →
    ∀ (chain : List Block) (nextId : Nat), verifyWalk none chain = [] → WellLinked chain →
      verifyWalk none (buildChainAux chain nextId rs) = [] ∧
        WellLinked (buildChainAux chain nextId rs) := by
  intro rs
  induction rs with
  | nil => intro _ chain nextId h1 h2; exact ⟨h1, h2⟩
  | cons r rs ih =>
    intro hts chain nextId h1 h2
    refine ih (fun q hq => hts q (by simp [hq])) _ _ ?_ ?_
    · rw [verifyWalk_appendBlock _ _ _ _ _ _ _ _ (hts r (by simp))]; exact h1
    · exact wellLinked_appendBlock _ _ _ _ _ _ _ _ h2

/-- Claim C1, amended: on appends where the Sequelize `created_at` stamp
coincides (as an ISO instant) with the clock read that was hashed, a ledger
built solely by `createBlock` appends and never modified afterwards verifies
with `valid = true` and an empty error list — each block's hash recomputed
from its stored fields matches, and every non-genesis block's
`previous_hash` equals the preceding block's `hash`.  Without that proviso
the claim fails: the two clock reads are distinct in the source, and a block
whose `created_at` renders to a different instant than its hashed
`timestamp` flunks the hash recomputation (see the counterexample). -/
theorem chains_built_by_append_verify (rs : List AppendRequest)
    (hts : ∀ r ∈ rs, r.createdAt = r.timestamp) :
    verifyBlockchain (buildChain rs) = (true, []) ∧
      ∀ i, (h : i + 1 < (buildChain rs).length) →
        (buildChain rs)[i + 1].previous_hash = some (((buildChain rs).get (Fin.mk i (by omega))).hash) := by
  have hbase : WellLinked ([] : List Block) := by
    intro i h
    simp only [List.length_nil] at h
    omega
  have h := buildChainAux_invariants rs hts [] 1 rfl hbase
  refine ⟨?_, h.2⟩
  have h1 := h.1
  simp only [verifyBlockchain, buildChain] at h1 ⊢
  rw [h1]
  rfl

/-- Witness for C1 at a concrete two-append ledger whose stamps coincide with
the hashed reads. -/
theorem chains_built_by_append_verify_witness :
    (∀ r ∈ [(⟨"doc-1", "aaa", "[]", [("k", .str "v")], "2024-01-01T00:00:00.000Z",
          "2024-01-01T00:00:00.000Z"⟩ : AppendRequest),
        ⟨"doc-2", "bbb", "[]", [], "2024-01-01T00:00:01.000Z",
          "2024-01-01T00:00:01.000Z"⟩], r.createdAt = r.timestamp) ∧
    verifyBlockchain (buildChain
      [⟨"doc-1", "aaa", "[]", [("k", .str "v")], "2024-01-01T00:00:00.000Z",
        "2024-01-01T00:00:00.000Z"⟩,
       ⟨"doc-2", "bbb", "[]", [], "2024-01-01T00:00:01.000Z",
        "2024-01-01T00:00:01.000Z"⟩]) = (true, []) ∧
    (buildChain
      [⟨"doc-1", "aaa", "[]", [("k", .str "v")], "2024-01-01T00:00:00.000Z",
        "2024-01-01T00:00:00.000Z"⟩,
       ⟨"doc-2", "bbb", "[]", [], "2024-01-01T00:00:01.000Z",
        "2024-01-01T00:00:01.000Z"⟩])[1].previous_hash =
      some (((buildChain
      [⟨"doc-1", "aaa", "[]", [("k", .str "v")], "2024-01-01T00:00:00.000Z",
        "2024-01-01T00:00:00.000Z"⟩,
       ⟨"doc-2", "bbb", "[]", [], "2024-01-01T00:00:01.000Z",
        "2024-01-01T00:00:01.000Z"⟩]).get (Fin.mk 0 (by decide))).hash) :=
  ⟨by decide, (chains_built_by_append_verify _ (by decide)).1,
   (chains_built_by_append_verify _ (by decide)).2 0 (by decide)⟩

/-- The original C1 claim refuted: one append whose Sequelize `created_at`
stamp landed a millisecond after the hashed clock read produces a ledger,
built solely by append and never modified, that fails verification with a
hash error on the new block. -/
theorem chains_built_by_append_verify_counterexample :
    (verifyBlockchain (buildChain
        [⟨"doc-1", "aaa", "[]", [], "2024-01-01T00:00:00.000Z",
          "2024-01-01T00:00:00.001Z"⟩])).1 = false ∧
      "Block 1 has invalid hash" ∈
        (verifyBlockchain (buildChain
          [⟨"doc-1", "aaa", "[]", [], "2024-01-01T00:00:00.000Z",
            "2024-01-01T00:00:00.001Z"⟩])).2 := by
  constructor
  · decide
  · decide

/-- Claim C4: on every successful append, the new block's `previous_hash`
equals the hash of the block that was chronologically last before the append,
and is absent when the ledger was empty. -/
theorem createBlock_previous_hash (chain : List Block) (nextId : Nat) (d c s : String)
    (m : List (String × Jv)) (t ca : String) :
    (createBlock chain nextId d c s m t ca).previous_hash =
        chain.getLast?.map (fun b => b.hash) ∧
      (chain = [] → (createBlock chain nextId d c s m t ca).previous_hash = none) ∧
      ∀ pre last, chain = pre ++ [last] →
        (createBlock chain nextId d c s m t ca).previous_hash = some last.hash := by
  refine ⟨rfl, ?_, ?_⟩
  · rintro rfl
    rfl
  · rintro pre last rfl
    simp [createBlock, List.getLast?_concat]

/-- Witness for C4: the first block of a ledger takes no predecessor, the
second takes the first block's hash. -/
theorem createBlock_previous_hash_witness :
    (createBlock [] 1 "doc-1" "aaa" "[]" [] "2024-01-01T00:00:00.000Z"
        "2024-01-01T00:00:00.000Z").previous_hash = none ∧
    (createBlock [createBlock [] 1 "doc-1" "aaa" "[]" [] "2024-01-01T00:00:00.000Z"
          "2024-01-01T00:00:00.000Z"] 2
        "doc-2" "bbb" "[]" [] "2024-01-01T00:00:01.000Z"
        "2024-01-01T00:00:01.000Z").previous_hash =
      some (createBlock [] 1 "doc-1" "aaa" "[]" [] "2024-01-01T00:00:00.000Z"
        "2024-01-01T00:00:00.000Z").hash :=
  ⟨(createBlock_previous_hash [] 1 "doc-1" "aaa" "[]" [] "2024-01-01T00:00:00.000Z"
      "2024-01-01T00:00:00.000Z").2.1 rfl,
   (createBlock_previous_hash _ 2 "doc-2" "bbb" "[]" [] "2024-01-01T00:00:01.000Z"
      "2024-01-01T00:00:01.000Z").2.2 [] _ rfl⟩

theorem verifyWalk_eq_specWalk : ∀ (suf pre : List Block),
    verifyWalk pre.getLast? suf = specWalk (pre ++ suf) pre.length suf := by
  intro suf
  induction suf with
  | nil => intro pre; rfl
  | cons b rest ih =>
    intro pre
    have hhead : blockErrors pre.getLast? b = specErrorsAt (pre ++ b :: rest) pre.length b := by
      unfold blockErrors specErrorsAt
      cases pre with
      | nil => rfl
      | cons q qs =>
        rw [List.cons_append]
        have hlen : (q :: qs).length ≠ 0 := by simp
        rw [if_neg hlen]
        have hidx : (q :: (qs ++ b :: rest))[(q :: qs).length - 1]? = (q :: qs).getLast? := by
          rw [← List.cons_append, List.getElem?_append_left (by simp),
            ← List.getLast?_eq_getElem?]
        rw [hidx]
        cases hl : (q :: qs).getLast? with
        | none => simp [List.getLast?_eq_none_iff] at hl
        | some p => rfl
    have htail : verifyWalk (some b) rest = specWalk (pre ++ b :: rest) (pre.length + 1) rest := by
      have h2 := ih (pre ++ [b])
      simpa [List.getLast?_concat, List.append_assoc] using h2
    simp only [verifyWalk, specWalk, hhead, htail]

/-- Claim C7: `verifyBlockchain` walks every block in chronological order
without short-circuiting, reporting the full error list with the three spec
message forms, and `valid` is exactly emptiness of that list. -/
theorem verifyAll_reports_all_errors (chain : List Block) :
    verifyBlockchain chain = verifyAllSpec chain ∧
      ((verifyBlockchain chain).1 = true ↔ (verifyBlockchain chain).2 = []) := by
  have h := verifyWalk_eq_specWalk chain []
  simp only [List.nil_append, List.getLast?_nil, List.length_nil] at h
  constructor
  · simp only [verifyBlockchain, verifyAllSpec]
    rw [h]
  · simp [verifyBlockchain, List.isEmpty_iff]

/-- Claim C6: in a ledger that verifies as valid, replacing the block at any
position with a version whose stored fields no longer satisfy the hash
equation (as any single-field mutation does, the hash function being
collision-resistant; the witness exhibits a concrete `content_hash` mutation)
makes `verifyBlockchain` return `valid = false` with an error naming that
block's id. -/
theorem tamper_detection (chain : List Block) (i : Nat) (hi : i < chain.length)
    (_hvalid : verifyBlockchain chain = (true, [])) (b2 : Block)
    (hid : b2.id = (chain.get (Fin.mk i hi)).id) (htamper : recomputedHash b2 ≠ b2.hash) :
    (verifyBlockchain (chain.set i b2)).1 = false ∧
      ("Block " ++ natStr (chain.get (Fin.mk i hi)).id ++ " has invalid hash")
        ∈ (verifyBlockchain (chain.set i b2)).2 := by
  have hset : chain.set i b2 = chain.take i ++ b2 :: chain.drop (i + 1) := by
    rw [List.set_eq_take_append_cons_drop]
    simp [hi]
  have hmsg : ("Block " ++ natStr b2.id ++ " has invalid hash")
      ∈ verifyWalk none (chain.set i b2) := by
    rw [hset, verifyWalk_append]
    refine List.mem_append_right _ ?_
    simp only [verifyWalk, blockErrors, if_neg htamper]
    exact List.mem_append_left _ (List.mem_append_left _ (List.mem_singleton.mpr rfl))
  rw [hid] at hmsg
  refine ⟨?_, hmsg⟩
  simp only [verifyBlockchain, List.isEmpty_eq_false_iff_exists_mem]
  exact ⟨_, hmsg⟩

/-- Witness for C6: a one-block valid ledger whose block gets its
`content_hash` replaced; verification turns invalid and names the block. -/
theorem tamper_detection_witness :
    (verifyBlockchain ((buildChain
        [⟨"doc-1", "aaa", "[]", [], "2024-01-01T00:00:00.000Z", "2024-01-01T00:00:00.000Z"⟩]).set 0
      { (buildChain [⟨"doc-1", "aaa", "[]", [], "2024-01-01T00:00:00.000Z", "2024-01-01T00:00:00.000Z"⟩]).get (Fin.mk 0 (by decide))
          with content_hash := "zzz" })).1 = false ∧
    ("Block " ++ natStr ((buildChain
        [⟨"doc-1", "aaa", "[]", [], "2024-01-01T00:00:00.000Z", "2024-01-01T00:00:00.000Z"⟩]).get (Fin.mk 0 (by decide))).id ++
      " has invalid hash")
      ∈ (verifyBlockchain ((buildChain
        [⟨"doc-1", "aaa", "[]", [], "2024-01-01T00:00:00.000Z", "2024-01-01T00:00:00.000Z"⟩]).set 0
      { (buildChain [⟨"doc-1", "aaa", "[]", [], "2024-01-01T00:00:00.000Z", "2024-01-01T00:00:00.000Z"⟩]).get (Fin.mk 0 (by decide))
          with content_hash := "zzz" })).2 :=
  tamper_detection _ 0 (by decide) (by decide) _ (by decide) (by decide)

/-! ### The anonymized export contract (claim C8) -/

theorem anonymizeFrom_eq_enumFrom : ∀ (l : List Block) (k : Nat),
    anonymizeFrom k l = (l.enumFrom k).map (fun p => anonymizeBlock p.1 p.2) := by
  intro l
  induction l with
  | nil => intro k; rfl
  | cons b t ih =>
    intro k
    simp only [anonymizeFrom, List.enumFrom, List.map_cons, ih (k + 1)]

/-- Claim C8: the anonymized export route returns the oldest-first spec
projection over the effective limit, carries 1-based sequence numbers equal to
position, and clamps the limit parameter to `[1, 5000]` with default 1000. -/
theorem anonymized_export_contract (chain : List Block) (limitParam : Option Int) :
    anonymizedExportRoute chain limitParam =
        anonymizedExportSpec chain (anonymizedExportLimit limitParam).toNat ∧
      1 ≤ anonymizedExportLimit limitParam ∧ anonymizedExportLimit limitParam ≤ 5000 ∧
      (limitParam = none → anonymizedExportLimit limitParam = 1000) ∧
      ∀ j, (h : j < (anonymizedExportRoute chain limitParam).length) →
        (anonymizedExportRoute chain limitParam)[j].sequence = j + 1 := by
  have hroute : anonymizedExportRoute chain limitParam =
      anonymizedExportSpec chain (anonymizedExportLimit limitParam).toNat := by
    simp only [anonymizedExportRoute, getAnonymizedBlockchain, anonymizedExportSpec,
      anonymizeFrom_eq_enumFrom, List.enum]
    rfl
  refine ⟨hroute, ?_, ?_, ?_, ?_⟩
  · cases limitParam with
    | none => decide
    | some n => simp only [anonymizedExportLimit]; omega
  · cases limitParam with
    | none => decide
    | some n => simp only [anonymizedExportLimit]; omega
  · intro h
    rw [h]
    rfl
  · intro j h
    rw [List.getElem_of_eq hroute h]
    simp only [anonymizedExportSpec, List.getElem_map, List.getElem_enum]

/-- Witness for C8 at a concrete one-block ledger with an absent limit
parameter: default limit 1000, spec projection, sequence 1 at position 0. -/
theorem anonymized_export_contract_witness :
    anonymizedExportRoute (buildChain [⟨"doc-1", "aaa", "[\x22s1\x22]", [("k", .str "v")],
        "2024-01-01T00:00:00.000Z", "2024-01-01T00:00:00.000Z"⟩]) none =
      anonymizedExportSpec (buildChain [⟨"doc-1", "aaa", "[\x22s1\x22]", [("k", .str "v")],
        "2024-01-01T00:00:00.000Z", "2024-01-01T00:00:00.000Z"⟩]) (anonymizedExportLimit none).toNat ∧
    anonymizedExportLimit none = 1000 ∧
    ((anonymizedExportRoute (buildChain [⟨"doc-1", "aaa", "[\x22s1\x22]", [("k", .str "v")],
        "2024-01-01T00:00:00.000Z", "2024-01-01T00:00:00.000Z"⟩]) none).get (Fin.mk 0 (by decide))).sequence = 1 :=
  ⟨(anonymized_export_contract _ none).1,
   (anonymized_export_contract (buildChain [⟨"doc-1", "aaa", "[\x22s1\x22]", [("k", .str "v")],
        "2024-01-01T00:00:00.000Z", "2024-01-01T00:00:00.000Z"⟩]) none).2.2.2.1 rfl,
   (anonymized_export_contract (buildChain [⟨"doc-1", "aaa", "[\x22s1\x22]", [("k", .str "v")],
        "2024-01-01T00:00:00.000Z", "2024-01-01T00:00:00.000Z"⟩]) none).2.2.2.2 0 (by decide)⟩

/-! ### Claim C10: undefined-valued keys and the normalization mismatch -/

theorem joinSep_mem_infix (sep x : String) : ∀ l : List String, x ∈ l →
    ∃ pre post, joinSep sep l = pre ++ x ++ post := by
  intro l
  induction l with
  | nil => intro h; exact absurd h (List.not_mem_nil x)
  | cons y t ih =>
    intro h
    cases t with
    | nil =>
      rcases List.mem_singleton.mp h with rfl
      exact ⟨"", "", by simp [joinSep, String.empty_append, String.append_empty]⟩
    | cons z t2 =>
      rcases List.mem_cons.mp h with rfl | hmem
      · refine ⟨"", sep ++ joinSep sep (z :: t2), ?_⟩
        simp only [joinSep, String.empty_append, String.append_assoc]
      · obtain ⟨pre, post, hpp⟩ := ih hmem
        refine ⟨y ++ sep ++ pre, post, ?_⟩
        simp only [joinSep, hpp, String.append_assoc]

theorem detEntries_eq_map (fs : List (String × Jv)) :
    detEntries fs = fs.map (fun p => (p.1, (deterministicStringify p.2).getD "undefined")) := by
  induction fs with
  | nil => rfl
  | cons p rest ih => obtain ⟨k, v⟩ := p; simp [detEntries, ih]

theorem assocLookup_of_mem_nodup : ∀ (l : List (String × String)) (k s : String),
    (k, s) ∈ l → (l.map Prod.fst).Nodup → assocLookup k l = some s := by
  intro l
  induction l with
  | nil => intro k s h _; exact absurd h (List.not_mem_nil _)
  | cons p rest ih =>
    intro k s h hnd
    obtain ⟨k1, v1⟩ := p
    simp only [List.map_cons, List.nodup_cons] at hnd
    rcases List.mem_cons.mp h with heq | hmem
    · obtain ⟨rfl, rfl⟩ := Prod.mk.injEq .. ▸ heq
      simp [assocLookup]
    · have hk : k1 ≠ k := by
        rintro rfl
        exact hnd.1 (List.mem_map.mpr ⟨(k1, s), hmem, rfl⟩)
      simp only [assocLookup, if_neg hk]
      exact ih k s hmem hnd.2

theorem normEntries_keys_subset : ∀ fs : List (String × Jv),
    (normEntries fs).map Prod.fst ⊆ fs.map Prod.fst := by
  intro fs
  induction fs with
  | nil => simp [normEntries]
  | cons p rest ih =>
    obtain ⟨k, v⟩ := p
    simp only [normEntries]
    cases normJv v with
    | none => exact fun x hx => List.mem_cons.mpr (Or.inr (ih hx))
    | some w =>
      intro x hx
      rcases List.mem_cons.mp hx with rfl | hx2
      · exact List.mem_cons_self ..
      · exact List.mem_cons.mpr (Or.inr (ih hx2))

theorem normEntries_drops_undef_key : ∀ (fs : List (String × Jv)) (k : String),
    (k, Jv.undef) ∈ fs → (fs.map Prod.fst).Nodup → k ∉ (normEntries fs).map Prod.fst := by
  intro fs
  induction fs with
  | nil => intro k h _; exact absurd h (List.not_mem_nil _)
  | cons p rest ih =>
    intro k h hnd
    obtain ⟨k1, v1⟩ := p
    simp only [List.map_cons, List.nodup_cons] at hnd
    rcases List.mem_cons.mp h with heq | hmem
    · obtain ⟨rfl, rfl⟩ := Prod.mk.injEq .. ▸ heq
      simp only [normEntries, normJv]
      intro hmem2
      exact hnd.1 (normEntries_keys_subset rest hmem2)
    · have hk : k1 ≠ k := by
        rintro rfl
        exact hnd.1 (List.mem_map.mpr ⟨(k1, Jv.undef), hmem, rfl⟩)
      simp only [normEntries]
      cases normJv v1 with
      | none => exact ih k hmem hnd.2
      | some w =>
        simp only [List.map_cons, List.mem_cons]
        rintro (rfl | hmem2)
        · exact hk rfl
        · exact ih k hmem hnd.2 hmem2

/-- Claim C10: a mapping key holding JS `undefined` is rendered by
`deterministicStringify` with the literal token `undefined` (not valid JSON),
while the `JSON.parse(JSON.stringify(·))` normalization used before hashing in
`createBlock` drops such keys, so serializing before and after normalization
can hash differently. -/
theorem undefined_metadata_divergence :
    (∀ (fs : List (String × Jv)) (k : String), (k, Jv.undef) ∈ fs →
        (fs.map Prod.fst).Nodup →
        (∃ pre post, deterministicStringifyD (.obj fs) =
            pre ++ (jsonQuote k ++ ":" ++ "undefined") ++ post) ∧
          k ∉ (normEntries fs).map Prod.fst) ∧
      (∃ fs : List (String × Jv), calculateObjectHash (.obj fs) ≠
          calculateObjectHash (.obj (normEntries fs))) ∧
      jsonParse (deterministicStringifyD (.obj [("a", Jv.undef), ("b", Jv.num 1)])) = none := by
  refine ⟨?_, ⟨[("a", Jv.undef), ("b", Jv.num 1)], by decide⟩, by decide⟩
  intro fs k hmem hnd
  refine ⟨?_, normEntries_drops_undef_key fs k hmem hnd⟩
  have hkeys : k ∈ sortKeys (fs.map Prod.fst) :=
    (List.perm_insertionSort _ (fs.map Prod.fst)).mem_iff.mpr
      (List.mem_map.mpr ⟨(k, Jv.undef), hmem, rfl⟩)
  have hlook : assocLookup k (detEntries fs) = some "undefined" := by
    refine assocLookup_of_mem_nodup _ k "undefined" ?_ ?_
    · rw [detEntries_eq_map]
      exact List.mem_map.mpr ⟨(k, Jv.undef), hmem, rfl⟩
    · rw [detEntries_eq_map, List.map_map]
      exact hnd
  have hrend : (jsonQuote k ++ ":" ++ "undefined") ∈
      (sortKeys (fs.map Prod.fst)).map
        (fun k2 => jsonQuote k2 ++ ":" ++ ((assocLookup k2 (detEntries fs)).getD "undefined")) := by
    refine List.mem_map.mpr ⟨k, hkeys, ?_⟩
    rw [hlook]
    rfl
  obtain ⟨pre, post, hpp⟩ := joinSep_mem_infix "," _ _ hrend
  refine ⟨"\x7b" ++ pre, post ++ "\x7d", ?_⟩
  simp only [deterministicStringifyD, deterministicStringify, Option.getD_some]
  rw [hpp]
  simp [String.append_assoc]

/-- Witness for C10 at the two-key mapping with one `undefined` value. -/
theorem undefined_metadata_divergence_witness :
    (∃ pre post, deterministicStringifyD (.obj [("a", Jv.undef), ("b", Jv.num 1)]) =
        pre ++ (jsonQuote "a" ++ ":" ++ "undefined") ++ post) ∧
      "a" ∉ (normEntries [("a", Jv.undef), ("b", Jv.num 1)]).map Prod.fst :=
  undefined_metadata_divergence.1 [("a", Jv.undef), ("b", Jv.num 1)] "a" (by decide) (by decide)

/-! ### Claim C5: order properties of the key comparator and canonical forms -/

theorem charListLe_total : ∀ a b : List Char, charListLe a b = true ∨ charListLe b a = true := by
  intro a
  induction a with
  | nil => intro b; left; rfl
  | cons x xs ih =>
    intro b
    cases b with
    | nil => right; rfl
    | cons y ys =>
      simp only [charListLe]
      by_cases h1 : x.toNat < y.toNat
      · left; simp [h1]
      · by_cases h2 : y.toNat < x.toNat
        · right; simp [h1, h2]
        · rcases ih ys with h | h <;> simp [h1, h2, h]

theorem char_toNat_inj {c d : Char} (h : c.toNat = d.toNat) : c = d :=
  Char.ext (UInt32.ext h)

theorem charListLe_trans : ∀ a b c : List Char, charListLe a b = true → charListLe b c = true →
    charListLe a c = true := by
  intro a
  induction a with
  | nil => intro b c _ _; rfl
  | cons x xs ih =>
    intro b c hab hbc
    cases b with
    | nil => simp [charListLe] at hab
    | cons y ys =>
      cases c with
      | nil => simp [charListLe] at hbc
      | cons z zs =>
        simp only [charListLe] at hab hbc ⊢
        by_cases hxy : x.toNat < y.toNat
        · rw [if_pos hxy] at hab
          by_cases hyz : y.toNat < z.toNat
          · rw [if_pos (show x.toNat < z.toNat by omega)]
          · by_cases hzy : z.toNat < y.toNat
            · rw [if_neg hyz, if_pos hzy] at hbc
              exact absurd hbc (by simp)
            · rw [if_pos (show x.toNat < z.toNat by omega)]
        · rw [if_neg hxy] at hab
          by_cases hyx : y.toNat < x.toNat
          · rw [if_pos hyx] at hab
            exact absurd hab (by simp)
          · rw [if_neg hyx] at hab
            by_cases hyz : y.toNat < z.toNat
            · rw [if_pos (show x.toNat < z.toNat by omega)]
            · by_cases hzy : z.toNat < y.toNat
              · rw [if_neg hyz, if_pos hzy] at hbc
                exact absurd hbc (by simp)
              · rw [if_neg hyz, if_neg hzy] at hbc
                rw [if_neg (show ¬ x.toNat < z.toNat by omega),
                  if_neg (show ¬ z.toNat < x.toNat by omega)]
                exact ih ys zs hab hbc

theorem charListLe_antisymm : ∀ a b : List Char, charListLe a b = true → charListLe b a = true →
    a = b := by
  intro a
  induction a with
  | nil =>
    intro b _ hba
    cases b with
    | nil => rfl
    | cons y ys => simp [charListLe] at hba
  | cons x xs ih =>
    intro b hab hba
    cases b with
    | nil => simp [charListLe] at hab
    | cons y ys =>
      simp only [charListLe] at hab hba
      by_cases hxy : x.toNat < y.toNat
      · simp [hxy, Nat.lt_asymm hxy] at hba
      · by_cases hyx : y.toNat < x.toNat
        · simp [hxy, hyx] at hab
        · have hxeq : x = y := char_toNat_inj (show x.toNat = y.toNat by omega)
          rw [if_neg hxy, if_neg hyx] at hab
          rw [if_neg hyx, if_neg hxy] at hba
          rw [hxeq, ih ys hab hba]

instance : IsTotal String keyLe :=
  ⟨fun a b => charListLe_total a.data b.data⟩

instance : IsTrans String keyLe :=
  ⟨fun a b c => charListLe_trans a.data b.data c.data⟩

instance : IsAntisymm String keyLe :=
  ⟨fun a b hab hba => by
    have h := charListLe_antisymm a.data b.data hab hba
    exact congrArg String.mk h⟩

theorem sortKeys_sorted (ks : List String) : List.Sorted keyLe (sortKeys ks) :=
  List.sorted_insertionSort keyLe ks

theorem sortKeys_perm (ks : List String) : (sortKeys ks).Perm ks :=
  List.perm_insertionSort keyLe ks

/-- Sorting by the JS comparator is insensitive to the input order. -/
theorem sortKeys_eq_of_perm {ks1 ks2 : List String} (h : ks1.Perm ks2) :
    sortKeys ks1 = sortKeys ks2 :=
  List.eq_of_perm_of_sorted ((sortKeys_perm ks1).trans (h.trans (sortKeys_perm ks2).symm))
    (sortKeys_sorted ks1) (sortKeys_sorted ks2)

/-- First-match lookup only depends on the multiset of entries when keys are
distinct. -/
theorem assocLookup_perm {l1 l2 : List (String × String)} (h : l1.Perm l2)
    (hnd : (l1.map Prod.fst).Nodup) (k : String) : assocLookup k l1 = assocLookup k l2 := by
  induction h with
  | nil => rfl
  | cons x h2 ih =>
    obtain ⟨k1, v1⟩ := x
    simp only [List.map_cons, List.nodup_cons] at hnd
    simp only [assocLookup]
    by_cases hk : k1 = k
    · simp [hk]
    · simp only [if_neg hk]
      exact ih hnd.2
  | swap x y l =>
    obtain ⟨kx, vx⟩ := x
    obtain ⟨ky, vy⟩ := y
    simp only [List.map_cons, List.nodup_cons, List.mem_cons] at hnd
    have hkk : ky ≠ kx := fun he => hnd.1 (Or.inl he)
    simp only [assocLookup]
    by_cases h1 : ky = k
    · subst h1
      have h2 : ¬ (kx = ky) := fun he => hkk he.symm
      simp [h2]
    · by_cases h2 : kx = k <;> simp [h1, h2]
  | trans h1 h2 ih1 ih2 =>
    have hnd2 : (_ : List (String × String)).map Prod.fst |>.Nodup :=
      ((h1.map Prod.fst).nodup_iff).mp hnd
    rw [ih1 hnd, ih2 hnd2]

theorem distinctKeys_iff : ∀ ks : List String, distinctKeys ks = true ↔ ks.Nodup := by
  intro ks
  induction ks with
  | nil => simp [distinctKeys]
  | cons k rest ih => simp [distinctKeys, List.nodup_cons, ih]

theorem canonEntries_keys : ∀ fs : List (String × Jv),
    (canonEntries fs).map Prod.fst = fs.map Prod.fst := by
  intro fs
  induction fs with
  | nil => rfl
  | cons p rest ih => obtain ⟨k, v⟩ := p; simp [canonEntries, ih]

theorem detEntries_keys : ∀ fs : List (String × Jv),
    (detEntries fs).map Prod.fst = fs.map Prod.fst := by
  intro fs
  induction fs with
  | nil => rfl
  | cons p rest ih => obtain ⟨k, v⟩ := p; simp [detEntries, ih]

mutual

theorem detStr_canon : ∀ v : Jv, jvNodupKeys v = true →
    deterministicStringify (canonJv v) = deterministicStringify v
  | .undef, _ => rfl
  | .jnull, _ => rfl
  | .bool _, _ => rfl
  | .num _, _ => rfl
  | .str _, _ => rfl
  | .arr xs, h => by
    simp only [canonJv, deterministicStringify]
    rw [detArray_canon xs (by simpa [jvNodupKeys] using h)]
  | .obj fs, h => by
    have h2 : (distinctKeys (fs.map Prod.fst) && jvEntriesNodupKeys fs) = true := h
    rw [Bool.and_eq_true] at h2
    have hnd : (fs.map Prod.fst).Nodup := (distinctKeys_iff _).mp h2.1
    have hperm : (List.insertionSort (fun p q => strLeB p.1 q.1 = true)
        (canonEntries fs)).Perm (canonEntries fs) := List.perm_insertionSort _ _
    have hkeysperm : ((List.insertionSort (fun p q => strLeB p.1 q.1 = true)
        (canonEntries fs)).map Prod.fst).Perm (fs.map Prod.fst) := by
      have h3 := hperm.map Prod.fst
      rwa [canonEntries_keys] at h3
    have hentries : detEntries (canonEntries fs) = detEntries fs := detEntries_canon fs h2.2
    have hlookup : ∀ k,
        assocLookup k (detEntries (List.insertionSort (fun p q => strLeB p.1 q.1 = true)
          (canonEntries fs))) = assocLookup k (detEntries fs) := by
      intro k
      have hp : (detEntries (List.insertionSort (fun p q => strLeB p.1 q.1 = true)
          (canonEntries fs))).Perm (detEntries fs) := by
        have h4 := hperm.map (fun p : String × Jv =>
          (p.1, (deterministicStringify p.2).getD "undefined"))
        rw [← detEntries_eq_map, ← detEntries_eq_map, hentries] at h4
        exact h4
      refine assocLookup_perm hp ?_ k
      rw [detEntries_keys]
      exact hkeysperm.nodup_iff.mpr hnd
    simp only [canonJv, deterministicStringify]
    rw [sortKeys_eq_of_perm hkeysperm]
    rw [List.map_congr_left (fun k _ => by rw [hlookup k])]

theorem detArray_canon : ∀ xs : List Jv, jvListNodupKeys xs = true →
    detArray (canonList xs) = detArray xs
  | [], _ => rfl
  | v :: vs, h => by
    have h2 : (jvNodupKeys v && jvListNodupKeys vs) = true := h
    rw [Bool.and_eq_true] at h2
    simp only [canonList, detArray, detStr_canon v h2.1, detArray_canon vs h2.2]

theorem detEntries_canon : ∀ fs : List (String × Jv), jvEntriesNodupKeys fs = true →
    detEntries (canonEntries fs) = detEntries fs
  | [], _ => rfl
  | (k, v) :: rest, h => by
    have h2 : (jvNodupKeys v && jvEntriesNodupKeys rest) = true := h
    rw [Bool.and_eq_true] at h2
    simp only [canonEntries, detEntries, detStr_canon v h2.1, detEntries_canon rest h2.2]

end

/-- Claim C5: the deterministic serializer is insensitive to mapping key
insertion order — structurally equal values (equal canonical forms) serialize
and hash identically — and encodes mappings with lexicographically sorted
keys, sequences as bracketed comma-joins, and scalars via JSON scalar
encoding, with no whitespace. -/
theorem deterministic_serializer_determinism :
    (∀ m1 m2 : Jv, jvNodupKeys m1 = true → jvNodupKeys m2 = true → canonJv m1 = canonJv m2 →
        deterministicStringify m1 = deterministicStringify m2 ∧
          calculateObjectHash m1 = calculateObjectHash m2) ∧
      (∀ fs, deterministicStringify (Jv.obj fs) = some ("\x7b" ++ joinSep ","
        ((sortKeys (fs.map Prod.fst)).map
          (fun k => jsonQuote k ++ ":" ++ ((assocLookup k (detEntries fs)).getD "undefined")))
        ++ "\x7d")) ∧
      (∀ xs, deterministicStringify (Jv.arr xs) = some ("[" ++ joinSep "," (detArray xs) ++ "]")) ∧
      deterministicStringify Jv.jnull = some "null" ∧
      (∀ s, deterministicStringify (Jv.str s) = some (jsonQuote s)) ∧
      (∀ n, deterministicStringify (Jv.num n) = some (intStr n)) ∧
      (∀ b, deterministicStringify (Jv.bool b) = some (if b then "true" else "false")) := by
  refine ⟨?_, fun _ => rfl, fun _ => rfl, rfl, fun _ => rfl, fun _ => rfl, fun _ => rfl⟩
  intro m1 m2 h1 h2 hc
  have hd : deterministicStringify m1 = deterministicStringify m2 := by
    rw [← detStr_canon m1 h1, hc, detStr_canon m2 h2]
  refine ⟨hd, ?_⟩
  unfold calculateObjectHash deterministicStringifyD
  rw [hd]

/-- Witness for C5: the same two-entry mapping written in both key orders. -/
theorem deterministic_serializer_determinism_witness :
    deterministicStringify (Jv.obj [("b", .num 1), ("a", .str "x")]) =
        deterministicStringify (Jv.obj [("a", .str "x"), ("b", .num 1)]) ∧
      calculateObjectHash (Jv.obj [("b", .num 1), ("a", .str "x")]) =
        calculateObjectHash (Jv.obj [("a", .str "x"), ("b", .num 1)]) :=
  deterministic_serializer_determinism.1 _ _ (by decide) (by decide) (by decide)

/-! ### JSON codec inversion: string bodies -/

theorem hexNibble_hexDigit : ∀ d, d < 16 → hexNibble (hexDigit d) = some d := by decide

theorem parseStringBody_plain (c : Char) (acc rest : List Char) (h1 : c ≠ '"')
    (h2 : c ≠ '\\') (h3 : ¬ c.toNat < 32) :
    parseStringBody acc (c :: rest) = parseStringBody (c :: acc) rest := by
  rw [parseStringBody.eq_def]
  split
  · rename_i heq
    injection heq with hc hr
    exact absurd hc h1
  · rename_i heq
    injection heq with hc hr
    exact absurd hc h2
  · rename_i heq
    injection heq with hc hr
    exact absurd hc h2
  · rename_i heq
    injection heq with hc hr
    subst hc
    subst hr
    rw [if_neg h3]
  · rename_i heq
    exact absurd heq (by simp)

theorem parseStringBody_escape (c : Char) (acc rest : List Char) :
    parseStringBody acc (escapeJsonChar c ++ rest) = parseStringBody (c :: acc) rest := by
  by_cases h1 : c = '"'
  · subst h1; rfl
  · by_cases h2 : c = '\\'
    · subst h2; rfl
    · by_cases h3 : c = '\n'
      · subst h3; rfl
      · by_cases h4 : c = '\r'
        · subst h4; rfl
        · by_cases h5 : c = '\t'
          · subst h5; rfl
          · by_cases h6 : c = Char.ofNat 8
            · subst h6; rfl
            · by_cases h7 : c = Char.ofNat 12
              · subst h7; rfl
              · by_cases h8 : c.toNat < 32
                · simp only [escapeJsonChar, if_neg h1, if_neg h2, if_neg h3, if_neg h4,
                    if_neg h5, if_neg h6, if_neg h7, if_pos h8, List.cons_append,
                    List.nil_append]
                  rw [parseStringBody]
                  have e0 : hexNibble '0' = some 0 := rfl
                  have ehi : hexNibble (hexDigit (c.toNat / 16)) = some (c.toNat / 16) :=
                    hexNibble_hexDigit _ (by omega)
                  have elo : hexNibble (hexDigit (c.toNat % 16)) = some (c.toNat % 16) :=
                    hexNibble_hexDigit _ (by omega)
                  simp only [e0, ehi, elo]
                  have harith : ((0 * 16 + 0) * 16 + c.toNat / 16) * 16 + c.toNat % 16
                      = c.toNat := by omega
                  rw [harith]
                  rw [if_neg (by simp only [Bool.and_eq_true, decide_eq_true_eq]; omega)]
                  rw [Char.ofNat_toNat]
                · simp only [escapeJsonChar, if_neg h1, if_neg h2, if_neg h3, if_neg h4,
                    if_neg h5, if_neg h6, if_neg h7, if_neg h8, List.cons_append,
                    List.nil_append]
                  exact parseStringBody_plain c acc rest h1 h2 h8

theorem parseStringBody_flatMap : ∀ (l : List Char) (acc rest : List Char),
    parseStringBody acc (l.flatMap escapeJsonChar ++ '"' :: rest) =
      some (String.mk (acc.reverse ++ l), rest) := by
  intro l
  induction l with
  | nil => intro acc rest; simp [parseStringBody]
  | cons c t ih =>
    intro acc rest
    rw [List.flatMap_cons, List.append_assoc, parseStringBody_escape, ih]
    simp

theorem parseStringBody_quote (s : String) (rest : List Char) :
    parseStringBody [] (s.data.flatMap escapeJsonChar ++ '"' :: rest) = some (s, rest) := by
  rw [parseStringBody_flatMap]
  cases s
  simp

/-! ### JSON codec inversion: integer literals -/

theorem natCharsAux_eq_spec : ∀ (fuel n : Nat) (acc : List Char), n ≤ fuel →
    natCharsAux fuel n acc = natDigitsSpec n ++ acc := by
  intro fuel
  induction fuel with
  | zero =>
    intro n acc h
    have : n = 0 := by omega
    subst this
    rw [natDigitsSpec]
    rfl
  | succ f ih =>
    intro n acc h
    rw [natCharsAux, natDigitsSpec]
    by_cases h10 : n < 10
    · simp [h10]
    · rw [if_neg h10, if_neg h10, ih (n / 10) _ (by omega), List.append_assoc]
      rfl

theorem natChars_eq_spec (n : Nat) : natChars n = natDigitsSpec n := by
  rw [natChars, natCharsAux_eq_spec n n [] (Nat.le_refl n), List.append_nil]

theorem digitChar_isDigit (d : Nat) (h : d < 10) : isDigitChar (digitChar d) = true := by
  interval_cases d <;> decide

theorem digitChar_toNat (d : Nat) (h : d < 10) : (digitChar d).toNat = 48 + d := by
  interval_cases d <;> decide

theorem natDigitsSpec_digits (n : Nat) : ∀ c ∈ natDigitsSpec n, isDigitChar c = true := by
  induction n using Nat.strong_induction_on with
  | _ n ih =>
    rw [natDigitsSpec]
    by_cases h10 : n < 10
    · simp only [if_pos h10, List.mem_singleton]
      rintro c rfl
      exact digitChar_isDigit n h10
    · simp only [if_neg h10, List.mem_append, List.mem_singleton]
      rintro c (hc | rfl)
      · exact ih (n / 10) (Nat.div_lt_self (by omega) (by omega)) c hc
      · exact digitChar_isDigit (n % 10) (by omega)

theorem natDigitsSpec_ne_nil (n : Nat) : natDigitsSpec n ≠ [] := by
  rw [natDigitsSpec]
  by_cases h10 : n < 10 <;> simp [h10]

theorem spanDigits_stop (cs : List Char)
    (h : cs = [] ∨ ∀ c t, cs = c :: t → isDigitChar c = false) : spanDigits cs = ([], cs) := by
  cases cs with
  | nil => rfl
  | cons c t =>
    rcases h with h | h
    · exact absurd h (by simp)
    · rw [spanDigits, if_neg (by simp [h c t rfl])]

theorem spanDigits_run : ∀ (ds rest : List Char), (∀ c ∈ ds, isDigitChar c = true) →
    spanDigits rest = ([], rest) → spanDigits (ds ++ rest) = (ds, rest) := by
  intro ds
  induction ds with
  | nil => intro rest _ hr; simpa using hr
  | cons c t ih =>
    intro rest hds hr
    rw [List.cons_append, spanDigits, if_pos (hds c (by simp)),
      ih rest (fun x hx => hds x (by simp [hx])) hr]

theorem digitsToNat_spec (n : Nat) : digitsToNat (natDigitsSpec n) = n := by
  induction n using Nat.strong_induction_on with
  | _ n ih =>
    rw [natDigitsSpec]
    by_cases h10 : n < 10
    · simp only [if_pos h10, digitsToNat, List.foldl_cons, List.foldl_nil]
      rw [digitChar_toNat n h10]
      omega
    · simp only [if_neg h10, digitsToNat, List.foldl_append, List.foldl_cons, List.foldl_nil]
      have hrec := ih (n / 10) (Nat.div_lt_self (by omega) (by omega))
      rw [digitsToNat] at hrec
      rw [hrec, digitChar_toNat (n % 10) (by omega)]
      omega

theorem numStop_facts {c : Char} {t : List Char} (h : numStop (c :: t) = true) :
    isDigitChar c = false ∧ c ≠ '.' ∧ c ≠ 'e' ∧ c ≠ 'E' := by
  simp only [numStop, Bool.not_eq_true', Bool.or_eq_false_iff, decide_eq_false_iff_not] at h
  exact ⟨h.1.1.1, h.1.1.2, h.1.2, h.2⟩

theorem numStop_spanDigits {rest : List Char} (hr : numStop rest = true) :
    spanDigits rest = ([], rest) := by
  refine spanDigits_stop rest ?_
  cases rest with
  | nil => exact Or.inl rfl
  | cons c t =>
    refine Or.inr ?_
    rintro c2 t2 heq
    injection heq with h1 h2
    subst h1
    exact (numStop_facts hr).1

theorem parseNumber_digitRun (ds : List Char) (c0 : Char) (t0 rest : List Char)
    (hds : ds = c0 :: t0) (hdig : ∀ c ∈ ds, isDigitChar c = true)
    (hr : numStop rest = true) :
    parseNumber (ds ++ rest) = some (.num (digitsToNat ds : Int), rest) := by
  have hc0 : isDigitChar c0 = true := hdig c0 (hds ▸ List.mem_cons_self ..)
  have hneg : c0 ≠ '-' := by
    intro he
    rw [he] at hc0
    exact absurd hc0 (by decide)
  have hspan : spanDigits (ds ++ rest) = (ds, rest) :=
    spanDigits_run ds rest hdig (numStop_spanDigits hr)
  subst hds
  rw [List.cons_append] at hspan ⊢
  rw [parseNumber.eq_def]
  split
  · rename_i heq
    injection heq with h1 h2
    exact absurd h1 hneg
  · simp only [hspan, if_neg (List.cons_ne_nil c0 t0)]
    cases rest with
    | nil => rfl
    | cons c t =>
      obtain ⟨hd, hdot, he, hE⟩ := numStop_facts hr
      split
      · rename_i heq
        injection heq with h1 h2
        exact absurd h1 hdot
      · rename_i heq
        injection heq with h1 h2
        exact absurd h1 he
      · rename_i heq
        injection heq with h1 h2
        exact absurd h1 hE
      · rfl

theorem parseNumber_negDigitRun (ds : List Char) (c0 : Char) (t0 rest : List Char)
    (hds : ds = c0 :: t0) (hdig : ∀ c ∈ ds, isDigitChar c = true)
    (hr : numStop rest = true) :
    parseNumber ('-' :: (ds ++ rest)) = some (.num (-(digitsToNat ds : Int)), rest) := by
  have hspan : spanDigits (ds ++ rest) = (ds, rest) :=
    spanDigits_run ds rest hdig (numStop_spanDigits hr)
  subst hds
  rw [parseNumber.eq_def]
  split
  · rename_i heq
    injection heq with h1 h2
    subst h2
    simp only [List.cons_append] at hspan
    simp only [List.cons_append, hspan, if_neg (List.cons_ne_nil c0 t0)]
    cases rest with
    | nil => rfl
    | cons c t =>
      obtain ⟨hd, hdot, he, hE⟩ := numStop_facts hr
      split
      · rename_i heq2
        injection heq2 with h1 h2
        exact absurd h1 hdot
      · rename_i heq2
        injection heq2 with h1 h2
        exact absurd h1 he
      · rename_i heq2
        injection heq2 with h1 h2
        exact absurd h1 hE
      · rfl
  · rename_i hexcl
    exact (hexcl (c0 :: t0 ++ rest) rfl).elim

theorem natDigitsSpec_cons (n : Nat) : ∃ c0 t0, natDigitsSpec n = c0 :: t0 := by
  cases h : natDigitsSpec n with
  | nil => exact absurd h (natDigitsSpec_ne_nil n)
  | cons a b => exact ⟨a, b, rfl⟩

theorem parseNumber_intChars (i : Int) (rest : List Char) (hr : numStop rest = true) :
    parseNumber (intChars i ++ rest) = some (.num i, rest) := by
  obtain ⟨c0, t0, hds⟩ := natDigitsSpec_cons i.natAbs
  rw [intChars]
  by_cases hi : i < 0
  · rw [if_pos hi, natChars_eq_spec, List.cons_append]
    rw [parseNumber_negDigitRun (natDigitsSpec i.natAbs) c0 t0 rest hds
      (natDigitsSpec_digits i.natAbs) hr]
    rw [digitsToNat_spec]
    have hn : -((i.natAbs : Nat) : Int) = i := by
      rw [Int.ofNat_natAbs_of_nonpos (by omega)]
      omega
    rw [hn]
  · rw [if_neg hi, natChars_eq_spec]
    rw [parseNumber_digitRun (natDigitsSpec i.natAbs) c0 t0 rest hds
      (natDigitsSpec_digits i.natAbs) hr]
    rw [digitsToNat_spec]
    rw [Int.natAbs_of_nonneg (by omega)]

/-! ### JSON-representable values and the normalization lemmas -/

mutual

theorem normJv_noUndef : ∀ v u : Jv, normJv v = some u → jvNoUndef u = true
  | .undef, u => by intro h; simp [normJv] at h
  | .jnull, u => by rintro ⟨rfl⟩; rfl
  | .bool b, u => by rintro ⟨rfl⟩; rfl
  | .num n, u => by rintro ⟨rfl⟩; rfl
  | .str s, u => by rintro ⟨rfl⟩; rfl
  | .arr xs, u => by
    rintro ⟨rfl⟩
    exact normArray_noUndef xs
  | .obj fs, u => by
    rintro ⟨rfl⟩
    exact normEntries_noUndef fs

theorem normArray_noUndef : ∀ xs : List Jv, jvListNoUndef (normArray xs) = true
  | [] => rfl
  | v :: vs => by
    simp only [normArray, jvListNoUndef, Bool.and_eq_true]
    refine ⟨?_, normArray_noUndef vs⟩
    cases h : normJv v with
    | none => rfl
    | some u => exact normJv_noUndef v u h

theorem normEntries_noUndef : ∀ fs : List (String × Jv),
    jvEntriesNoUndef (normEntries fs) = true
  | [] => rfl
  | (k, v) :: rest => by
    simp only [normEntries]
    cases h : normJv v with
    | none => exact normEntries_noUndef rest
    | some u =>
      simp only [jvEntriesNoUndef, Bool.and_eq_true]
      exact ⟨normJv_noUndef v u h, normEntries_noUndef rest⟩

end

mutual

theorem normJv_id : ∀ v : Jv, jvNoUndef v = true → normJv v = some v
  | .undef, h => by simp [jvNoUndef] at h
  | .jnull, _ => rfl
  | .bool _, _ => rfl
  | .num _, _ => rfl
  | .str _, _ => rfl
  | .arr xs, h => by
    simp only [normJv, Option.some.injEq, Jv.arr.injEq]
    exact normArray_id xs h
  | .obj fs, h => by
    simp only [normJv, Option.some.injEq, Jv.obj.injEq]
    exact normEntries_id fs h

theorem normArray_id : ∀ xs : List Jv, jvListNoUndef xs = true → normArray xs = xs
  | [], _ => rfl
  | v :: vs, h => by
    have h2 : (jvNoUndef v && jvListNoUndef vs) = true := h
    rw [Bool.and_eq_true] at h2
    simp only [normArray, normJv_id v h2.1, Option.getD_some, normArray_id vs h2.2]

theorem normEntries_id : ∀ fs : List (String × Jv), jvEntriesNoUndef fs = true →
    normEntries fs = fs
  | [], _ => rfl
  | (k, v) :: rest, h => by
    have h2 : (jvNoUndef v && jvEntriesNoUndef rest) = true := h
    rw [Bool.and_eq_true] at h2
    simp only [normEntries, normJv_id v h2.1, normEntries_id rest h2.2]

end

/-! ### Parser round trip: head and whitespace facts -/

theorem natDigitsSpec_head_digit (n : Nat) :
    ∃ c t, natDigitsSpec n = c :: t ∧ isDigitChar c = true := by
  obtain ⟨c, t, h⟩ := natDigitsSpec_cons n
  exact ⟨c, t, h, natDigitsSpec_digits n c (h ▸ List.mem_cons_self ..)⟩

theorem digit_head_facts {c : Char} (h : isDigitChar c = true) :
    isJsonWs c = false ∧ c ≠ ']' ∧ c ≠ 'n' ∧ c ≠ 't' ∧ c ≠ 'f' ∧ c ≠ '"' ∧ c ≠ '[' ∧
      c ≠ '\x7b' ∧ c ≠ '-' := by
  simp only [isDigitChar, Bool.and_eq_true, decide_eq_true_eq] at h
  refine ⟨?_, ?_, ?_, ?_, ?_, ?_, ?_, ?_, ?_⟩
  · simp only [isJsonWs, Bool.or_eq_false_iff, decide_eq_false_iff_not]
    refine ⟨⟨⟨?_, ?_⟩, ?_⟩, ?_⟩ <;> (rintro rfl; revert h; decide)
  all_goals (rintro rfl; revert h; decide)

theorem printJson_head (v : Jv) :
    ∃ c t, printJson v = c :: t ∧ isJsonWs c = false ∧ c ≠ ']' := by
  cases v with
  | undef => exact ⟨'n', _, rfl, by decide, by decide⟩
  | jnull => exact ⟨'n', _, rfl, by decide, by decide⟩
  | bool b => cases b with
    | true => exact ⟨'t', _, rfl, by decide, by decide⟩
    | false => exact ⟨'f', _, rfl, by decide, by decide⟩
  | str s => exact ⟨'"', _, rfl, by decide, by decide⟩
  | arr xs => exact ⟨'[', _, rfl, by decide, by decide⟩
  | obj fs => exact ⟨'\x7b', _, rfl, by decide, by decide⟩
  | num i =>
    simp only [printJson, intChars]
    by_cases hi : i < 0
    · rw [if_pos hi]
      exact ⟨'-', _, rfl, by decide, by decide⟩
    · rw [if_neg hi, natChars_eq_spec]
      obtain ⟨c, t, hct, hd⟩ := natDigitsSpec_head_digit i.natAbs
      obtain ⟨hws, hbr, _⟩ := digit_head_facts hd
      exact ⟨c, t, hct, hws, hbr⟩

theorem skipJsonWs_cons_of_not_ws {c : Char} (t : List Char) (h : isJsonWs c = false) :
    skipJsonWs (c :: t) = c :: t := by
  rw [skipJsonWs, if_neg (by simp [h])]

theorem skipJsonWs_printJson (v : Jv) (x : List Char) :
    skipJsonWs (printJson v ++ x) = printJson v ++ x := by
  obtain ⟨c, t, hct, hws, _⟩ := printJson_head v
  rw [hct, List.cons_append, skipJsonWs_cons_of_not_ws _ hws]

/-! ### Parser round trip: branch-selection lemmas -/

theorem parseJv_fallthrough (f : Nat) (c0 : Char) (t : List Char)
    (hws : isJsonWs c0 = false) (hq : c0 ≠ '"') (hn : c0 ≠ 'n') (hbk : c0 ≠ '[')
    (ht : c0 ≠ 't') (hbo : c0 ≠ '\x7b') (hf : c0 ≠ 'f') :
    parseJv (f + 1) (c0 :: t) = parseNumber (c0 :: t) := by
  rw [parseJv]
  rw [skipJsonWs_cons_of_not_ws t hws]
  split
  · rename_i heq
    injection heq with h1 h2
    exact absurd h1 hn
  · rename_i heq
    injection heq with h1 h2
    exact absurd h1 ht
  · rename_i heq
    injection heq with h1 h2
    exact absurd h1 hf
  · rename_i heq
    injection heq with h1 h2
    exact absurd h1 hq
  · rename_i heq
    injection heq with h1 h2
    exact absurd h1 hbk
  · rename_i heq
    injection heq with h1 h2
    exact absurd h1 hbo
  · rfl

theorem parseJv_arr_cons (f : Nat) (x : Jv) (xs : List Jv) (rest : List Char) :
    parseJv (f + 1) ('[' :: (printItems (x :: xs) ++ ']' :: rest)) =
      (parseItems f (printItems (x :: xs) ++ ']' :: rest)).map
        (fun p => (Jv.arr p.1, p.2)) := by
  have hpi : printItems (x :: xs) ++ ']' :: rest
      = printJson x ++ (printMoreItems xs ++ ']' :: rest) := by
    simp [printItems, List.append_assoc]
  obtain ⟨c, t, hct, hws, hbr⟩ := printJson_head x
  rw [parseJv]
  have hsk : skipJsonWs ('[' :: (printItems (x :: xs) ++ ']' :: rest))
      = '[' :: (printItems (x :: xs) ++ ']' :: rest) :=
    skipJsonWs_cons_of_not_ws _ (by decide)
  rw [hsk]
  have hinner : skipJsonWs (printItems (x :: xs) ++ ']' :: rest)
      = printItems (x :: xs) ++ ']' :: rest := by
    rw [hpi, skipJsonWs_printJson, ← hpi]
  simp only
  rw [hinner]
  have hcons : printItems (x :: xs) ++ ']' :: rest = c :: (t ++ (printMoreItems xs ++ ']' :: rest)) := by
    rw [hpi, hct]
    simp [List.append_assoc]
  rw [hcons]
  split
  · rename_i heq
    injection heq with h1 h2
    exact absurd h1 hbr
  · rw [← hcons]

theorem parseJv_obj_cons (f : Nat) (k : String) (v : Jv) (fs : List (String × Jv))
    (rest : List Char) :
    parseJv (f + 1) ('\x7b' :: (printFields ((k, v) :: fs) ++ '\x7d' :: rest)) =
      (parseFields f (printFields ((k, v) :: fs) ++ '\x7d' :: rest)).map
        (fun p => (Jv.obj p.1, p.2)) := by
  rw [parseJv]
  have hpf : printFields ((k, v) :: fs) ++ '\x7d' :: rest
      = '"' :: ((k.data.flatMap escapeJsonChar ++ ['"'])
          ++ ':' :: (printJson v ++ printMoreFields fs) ++ '\x7d' :: rest) := by
    simp [printFields, List.append_assoc]
  rw [hpf]
  rfl

/-! ### Parser round trip: the main mutual induction -/

mutual

theorem rtJv : ∀ (v : Jv) (fuel : Nat) (rest : List Char),
    jvNoUndef v = true → (printJson v).length < fuel → numStop rest = true →
    parseJv fuel (printJson v ++ rest) = some (v, rest)
  | .undef, _, _, hnu, _, _ => by simp [jvNoUndef] at hnu
  | .jnull, fuel, rest, _, hf, _ => by
    cases fuel with
    | zero => exact absurd hf (Nat.not_lt_zero _)
    | succ f => rfl
  | .bool b, fuel, rest, _, hf, _ => by
    cases fuel with
    | zero => exact absurd hf (Nat.not_lt_zero _)
    | succ f => cases b <;> rfl
  | .str s, fuel, rest, _, hf, _ => by
    cases fuel with
    | zero => exact absurd hf (Nat.not_lt_zero _)
    | succ f =>
      have harg : printJson (.str s) ++ rest
          = '"' :: (s.data.flatMap escapeJsonChar ++ '"' :: rest) := by
        simp [printJson, List.append_assoc]
      rw [harg]
      show (parseStringBody [] (s.data.flatMap escapeJsonChar ++ '"' :: rest)).map
        (fun p => (Jv.str p.1, p.2)) = some (.str s, rest)
      rw [parseStringBody_quote]
      rfl
  | .num i, fuel, rest, _, hf, hr => by
    cases fuel with
    | zero => exact absurd hf (Nat.not_lt_zero _)
    | succ f =>
      by_cases hi : i < 0
      · have hneg : printJson (.num i) ++ rest = '-' :: (natChars i.natAbs ++ rest) := by
          simp [printJson, intChars, hi]
        rw [hneg, parseJv_fallthrough f '-' _ (by decide) (by decide) (by decide) (by decide)
          (by decide) (by decide) (by decide), ← List.cons_append,
          show '-' :: natChars i.natAbs = intChars i from by simp [intChars, hi]]
        exact parseNumber_intChars i rest hr
      · have hpos : printJson (.num i) ++ rest = natDigitsSpec i.natAbs ++ rest := by
          simp [printJson, intChars, hi, natChars_eq_spec]
        obtain ⟨c, t, hct, hd⟩ := natDigitsSpec_head_digit i.natAbs
        obtain ⟨hws, _, hn, ht, hfc, hq, hbk, hbo, _⟩ := digit_head_facts hd
        rw [hpos, hct, List.cons_append,
          parseJv_fallthrough f c _ hws hq hn hbk ht hbo hfc, ← List.cons_append, ← hct,
          show natDigitsSpec i.natAbs = intChars i from by simp [intChars, hi, natChars_eq_spec]]
        exact parseNumber_intChars i rest hr
  | .arr [], fuel, rest, _, hf, _ => by
    cases fuel with
    | zero => exact absurd hf (Nat.not_lt_zero _)
    | succ f => rfl
  | .arr (x :: xs), fuel, rest, hnu, hf, _ => by
    cases fuel with
    | zero => exact absurd hf (Nat.not_lt_zero _)
    | succ f =>
      have harg : printJson (.arr (x :: xs)) ++ rest
          = '[' :: (printItems (x :: xs) ++ ']' :: rest) := by
        simp [printJson, List.append_assoc]
      have hlen : (printItems (x :: xs)).length + 1 < f := by
        simp only [printJson, List.length_cons, List.length_append] at hf
        omega
      rw [harg, parseJv_arr_cons, rtItems x xs f rest hnu hlen]
      rfl
  | .obj [], fuel, rest, _, hf, _ => by
    cases fuel with
    | zero => exact absurd hf (Nat.not_lt_zero _)
    | succ f => rfl
  | .obj ((k, v) :: fs), fuel, rest, hnu, hf, _ => by
    cases fuel with
    | zero => exact absurd hf (Nat.not_lt_zero _)
    | succ f =>
      have harg : printJson (.obj ((k, v) :: fs)) ++ rest
          = '\x7b' :: (printFields ((k, v) :: fs) ++ '\x7d' :: rest) := by
        simp [printJson, List.append_assoc]
      have hlen : (printFields ((k, v) :: fs)).length + 1 < f := by
        simp only [printJson, List.length_cons, List.length_append] at hf
        omega
      rw [harg, parseJv_obj_cons, rtFields k v fs f rest hnu hlen]
      rfl

termination_by v _ _ _ _ _ => sizeOf v

theorem rtItems : ∀ (x : Jv) (xs : List Jv) (f : Nat) (rest : List Char),
    jvListNoUndef (x :: xs) = true → (printItems (x :: xs)).length + 1 < f →
    parseItems f (printItems (x :: xs) ++ ']' :: rest) = some (x :: xs, rest)
  | x, xs, 0, rest, _, hf => by exact absurd hf (Nat.not_lt_zero _)
  | x, [], f + 1, rest, hnu, hf => by
    have hx : jvNoUndef x = true := by
      have h2 : (jvNoUndef x && jvListNoUndef []) = true := hnu
      rw [Bool.and_eq_true] at h2
      exact h2.1
    have hlx : (printJson x).length < f := by
      simp only [printItems, printMoreItems, List.append_nil, List.length_append] at hf
      omega
    have harg : printItems [x] ++ ']' :: rest = printJson x ++ ']' :: rest := by
      simp [printItems, printMoreItems]
    rw [parseItems, harg, rtJv x f (']' :: rest) hx hlx rfl]
    rfl
  | x, y :: ys, f + 1, rest, hnu, hf => by
    have h2 : (jvNoUndef x && jvListNoUndef (y :: ys)) = true := hnu
    rw [Bool.and_eq_true] at h2
    have hlx : (printJson x).length < f := by
      simp only [printItems, printMoreItems, List.length_append, List.length_cons] at hf
      omega
    have hly : (printItems (y :: ys)).length + 1 < f := by
      simp only [printItems, printMoreItems, List.length_append, List.length_cons] at hf ⊢
      omega
    have harg : printItems (x :: y :: ys) ++ ']' :: rest
        = printJson x ++ (',' :: (printItems (y :: ys) ++ ']' :: rest)) := by
      simp [printItems, printMoreItems, List.append_assoc]
    rw [parseItems, harg,
      rtJv x f (',' :: (printItems (y :: ys) ++ ']' :: rest)) h2.1 hlx rfl]
    show (parseItems f (printItems (y :: ys) ++ ']' :: rest)).map
      (fun p => (x :: p.1, p.2)) = some (x :: y :: ys, rest)
    rw [rtItems y ys f rest h2.2 hly]
    rfl

termination_by x xs _ _ _ _ => 1 + sizeOf x + sizeOf xs

theorem rtFields : ∀ (k : String) (v : Jv) (fs : List (String × Jv)) (f : Nat)
    (rest : List Char),
    jvEntriesNoUndef ((k, v) :: fs) = true → (printFields ((k, v) :: fs)).length + 1 < f →
    parseFields f (printFields ((k, v) :: fs) ++ '\x7d' :: rest) = some ((k, v) :: fs, rest)
  | k, v, fs, 0, rest, _, hf => by exact absurd hf (Nat.not_lt_zero _)
  | k, v, [], f + 1, rest, hnu, hf => by
    have hv : jvNoUndef v = true := by
      have h2 : (jvNoUndef v && jvEntriesNoUndef []) = true := hnu
      rw [Bool.and_eq_true] at h2
      exact h2.1
    have hlv : (printJson v).length < f := by
      simp only [printFields, printMoreFields, List.append_nil, List.length_append,
        List.length_cons] at hf
      omega
    have harg : printFields [(k, v)] ++ '\x7d' :: rest
        = '"' :: (k.data.flatMap escapeJsonChar ++ '"' ::
            (':' :: (printJson v ++ '\x7d' :: rest))) := by
      simp [printFields, printMoreFields, List.append_assoc]
    rw [parseFields, harg]
    show (match parseStringBody [] (k.data.flatMap escapeJsonChar ++ '"' ::
        (':' :: (printJson v ++ '\x7d' :: rest))) with
      | none => none
      | some (k2, r1) =>
        match skipJsonWs r1 with
        | ':' :: r2 =>
          match parseJv f r2 with
          | none => none
          | some (v2, r3) =>
            match skipJsonWs r3 with
            | ',' :: r4 => (parseFields f r4).map (fun p => ((k2, v2) :: p.1, p.2))
            | '\x7d' :: r4 => some ([(k2, v2)], r4)
            | _ => none
        | _ => none) = some ([(k, v)], rest)
    rw [parseStringBody_quote]
    show (match parseJv f (printJson v ++ '\x7d' :: rest) with
      | none => none
      | some (v2, r3) =>
        match skipJsonWs r3 with
        | ',' :: r4 => (parseFields f r4).map (fun p => ((k, v2) :: p.1, p.2))
        | '\x7d' :: r4 => some ([(k, v2)], r4)
        | _ => none) = some ([(k, v)], rest)
    rw [rtJv v f ('\x7d' :: rest) hv hlv rfl]
    rfl
  | k, v, (k2, v2) :: fs2, f + 1, rest, hnu, hf => by
    have h2 : (jvNoUndef v && jvEntriesNoUndef ((k2, v2) :: fs2)) = true := hnu
    rw [Bool.and_eq_true] at h2
    have hlv : (printJson v).length < f := by
      simp only [printFields, printMoreFields, List.length_append, List.length_cons] at hf
      omega
    have hlf : (printFields ((k2, v2) :: fs2)).length + 1 < f := by
      simp only [printFields, printMoreFields, List.length_append, List.length_cons] at hf ⊢
      omega
    have harg : printFields ((k, v) :: (k2, v2) :: fs2) ++ '\x7d' :: rest
        = '"' :: (k.data.flatMap escapeJsonChar ++ '"' ::
            (':' :: (printJson v ++
              (',' :: (printFields ((k2, v2) :: fs2) ++ '\x7d' :: rest))))) := by
      simp [printFields, printMoreFields, List.append_assoc]
    rw [parseFields, harg]
    show (match parseStringBody [] (k.data.flatMap escapeJsonChar ++ '"' ::
        (':' :: (printJson v ++ (',' :: (printFields ((k2, v2) :: fs2) ++ '\x7d' :: rest))))) with
      | none => none
      | some (k3, r1) =>
        match skipJsonWs r1 with
        | ':' :: r2 =>
          match parseJv f r2 with
          | none => none
          | some (v3, r3) =>
            match skipJsonWs r3 with
            | ',' :: r4 => (parseFields f r4).map (fun p => ((k3, v3) :: p.1, p.2))
            | '\x7d' :: r4 => some ([(k3, v3)], r4)
            | _ => none
        | _ => none) = some ((k, v) :: (k2, v2) :: fs2, rest)
    rw [parseStringBody_quote]
    show (match parseJv f (printJson v ++
        (',' :: (printFields ((k2, v2) :: fs2) ++ '\x7d' :: rest))) with
      | none => none
      | some (v3, r3) =>
        match skipJsonWs r3 with
        | ',' :: r4 => (parseFields f r4).map (fun p => ((k, v3) :: p.1, p.2))
        | '\x7d' :: r4 => some ([(k, v3)], r4)
        | _ => none) = some ((k, v) :: (k2, v2) :: fs2, rest)
    rw [rtJv v f (',' :: (printFields ((k2, v2) :: fs2) ++ '\x7d' :: rest)) h2.1 hlv rfl]
    show (parseFields f (printFields ((k2, v2) :: fs2) ++ '\x7d' :: rest)).map
      (fun p => ((k, v) :: p.1, p.2)) = some ((k, v) :: (k2, v2) :: fs2, rest)
    rw [rtFields k2 v2 fs2 f rest h2.2 hlf]
    rfl

termination_by _ v fs _ _ _ _ => 1 + sizeOf v + sizeOf fs
end

/-- Parsing the compact print of a JSON-representable value recovers it. -/
theorem jsonParse_printJson (v : Jv) (h : jvNoUndef v = true) :
    jsonParse (String.mk (printJson v)) = some v := by
  unfold jsonParse
  have h2 := rtJv v ((printJson v).length + 1) [] h (by omega) rfl
  rw [List.append_nil] at h2
  show (match parseJv ((printJson v).length + 1) (printJson v) with
    | some (v2, r) => if skipJsonWs r = [] then some v2 else none
    | none => none) = some v
  rw [h2]
  rfl

/-- Model-level statement that `JSON.parse` inverts `JSON.stringify` up to the
normalization the stringifier performs. -/
theorem jsonParse_jsonStringify (v u : Jv) (h : normJv v = some u) :
    jsonStringify v = some (String.mk (printJson u)) ∧
      jsonParse (String.mk (printJson u)) = some u :=
  ⟨by simp [jsonStringify, h], jsonParse_printJson u (normJv_noUndef v u h)⟩

/-! ### UTF-8 round trip -/

theorem char_range (c : Char) : c.toNat < 0xd800 ∨ (0xdfff < c.toNat ∧ c.toNat < 0x110000) :=
  c.valid

theorem utf8DecodeAux_encodeChar (c : Char) (f : Nat) (rest : List Nat) :
    utf8DecodeAux (f + 1) (utf8EncodeChar c ++ rest) = c :: utf8DecodeAux f rest := by
  have hrange := char_range c
  simp only [utf8EncodeChar]
  by_cases h1 : c.toNat < 0x80
  · rw [if_pos h1, List.cons_append, List.nil_append, utf8DecodeAux.eq_def]
    simp only []
    rw [if_pos h1, Char.ofNat_toNat]
  · rw [if_neg h1]
    by_cases h2 : c.toNat < 0x800
    · rw [if_pos h2, List.cons_append, List.cons_append, List.nil_append,
        utf8DecodeAux.eq_def]
      simp only []
      rw [if_neg (by omega), if_neg (by omega), if_pos (by omega)]
      rw [if_pos (by simp only [isCont, Bool.and_eq_true, decide_eq_true_eq]; omega)]
      have harith : (0xc0 + c.toNat / 64 - 0xc0) * 64 + (0x80 + c.toNat % 64 - 0x80)
          = c.toNat := by omega
      rw [harith, Char.ofNat_toNat]
    · rw [if_neg h2]
      by_cases h3 : c.toNat < 0x10000
      · rw [if_pos h3, List.cons_append, List.cons_append, List.cons_append,
          List.nil_append, utf8DecodeAux.eq_def]
        simp only []
        rw [if_neg (by omega), if_neg (by omega), if_neg (by omega), if_pos (by omega)]
        rw [if_pos (by simp only [isCont, Bool.and_eq_true, decide_eq_true_eq]; omega)]
        have harith : (0xe0 + c.toNat / 4096 - 0xe0) * 4096 +
            (0x80 + c.toNat / 64 % 64 - 0x80) * 64 + (0x80 + c.toNat % 64 - 0x80)
            = c.toNat := by omega
        simp only [harith]
        rw [if_neg (by simp only [Bool.and_eq_true, decide_eq_true_eq]; omega),
          Char.ofNat_toNat]
      · rw [if_neg h3, List.cons_append, List.cons_append, List.cons_append,
          List.cons_append, List.nil_append, utf8DecodeAux.eq_def]
        simp only []
        rw [if_neg (by omega), if_neg (by omega), if_neg (by omega), if_neg (by omega),
          if_pos (by omega)]
        rw [if_pos (by simp only [isCont, Bool.and_eq_true, decide_eq_true_eq]; omega)]
        have harith : (0xf0 + c.toNat / 262144 - 0xf0) * 262144 +
            (0x80 + c.toNat / 4096 % 64 - 0x80) * 4096 +
            (0x80 + c.toNat / 64 % 64 - 0x80) * 64 + (0x80 + c.toNat % 64 - 0x80)
            = c.toNat := by omega
        simp only [harith]
        rw [if_pos (by omega), Char.ofNat_toNat]

theorem utf8EncodeChar_length_pos (c : Char) : 0 < (utf8EncodeChar c).length := by
  simp only [utf8EncodeChar]
  by_cases h1 : c.toNat < 0x80
  · rw [if_pos h1]; exact Nat.zero_lt_one
  · rw [if_neg h1]
    by_cases h2 : c.toNat < 0x800
    · rw [if_pos h2]; exact Nat.zero_lt_succ 1
    · rw [if_neg h2]
      by_cases h3 : c.toNat < 0x10000
      · rw [if_pos h3]; exact Nat.zero_lt_succ 2
      · rw [if_neg h3]; exact Nat.zero_lt_succ 3

theorem utf8DecodeAux_encodeList :
    ∀ (cs : List Char) (fuel : Nat), (cs.flatMap utf8EncodeChar).length ≤ fuel →
      utf8DecodeAux fuel (cs.flatMap utf8EncodeChar) = cs := by
  intro cs
  induction cs with
  | nil =>
    intro fuel _
    cases fuel with
    | zero => rfl
    | succ f => rfl
  | cons c cs ih =>
    intro fuel hlen
    rw [List.flatMap_cons] at hlen ⊢
    have hc := utf8EncodeChar_length_pos c
    rw [List.length_append] at hlen
    cases fuel with
    | zero => omega
    | succ f =>
      rw [utf8DecodeAux_encodeChar]
      have htail : (cs.flatMap utf8EncodeChar).length ≤ f := by omega
      rw [ih f htail]

/-- Decoding the UTF-8 bytes of a string recovers the string: the model of
`Buffer.from(s, 'utf-8').toString('utf-8') === s`. -/
theorem utf8_round_trip (s : String) : utf8Decode (utf8Bytes s) = s := by
  rw [utf8Decode, utf8Bytes, utf8DecodeAux_encodeList s.data _ (Nat.le_refl _)]

/-! ### Base64 round trip and character facts -/

theorem b64Value_b64Char : ∀ n, n < 64 → b64Value (b64Char n) = some n := by decide

theorem b64Char_ok : ∀ n, isJsSpace (b64Char n) = false ∧ b64Char n ≠ '%' ∧ b64Char n ≠ '=' := by
  intro n
  by_cases h : n < 64
  · revert h
    revert n
    decide
  · have hl : b64Alphabet.length ≤ n := by
      have h64 : b64Alphabet.length = 64 := by decide
      omega
    show isJsSpace (b64Alphabet.getD n 'A') = false ∧ b64Alphabet.getD n 'A' ≠ '%' ∧
      b64Alphabet.getD n 'A' ≠ '='
    rw [List.getD_eq_default _ _ hl]
    exact ⟨by decide, by decide, by decide⟩

theorem base64DecodeChars_cons4 (c0 c1 c2 c3 : Char) (rest : List Char) (h3 : c3 ≠ '=') :
    base64DecodeChars (c0 :: c1 :: c2 :: c3 :: rest) =
      match b64Value c0, b64Value c1, b64Value c2, b64Value c3, base64DecodeChars rest with
      | some v0, some v1, some v2, some v3, some tail =>
        some ((v0 * 4 + v1 / 16) :: (v1 % 16 * 16 + v2 / 4) :: (v2 % 4 * 64 + v3) :: tail)
      | _, _, _, _, _ => none := by
  rw [base64DecodeChars.eq_def]
  split
  · rename_i heq
    exact absurd (congrArg List.length heq) (by simp)
  · rename_i heq
    injection heq with e0 heq
    injection heq with e1 heq
    injection heq with e2 heq
    injection heq with e3 _
    exact absurd e3 h3
  · rename_i heq
    injection heq with e0 heq
    injection heq with e1 heq
    injection heq with e2 heq
    injection heq with e3 _
    exact absurd e3 h3
  · rename_i a b c d tl heq
    injection heq with e0 heq
    injection heq with e1 heq
    injection heq with e2 heq
    injection heq with e3 e4
    subst e0; subst e1; subst e2; subst e3; subst e4
    rfl
  · rename_i hexcl
    exact absurd rfl (hexcl c0 c1 c2 c3 rest)

theorem base64DecodeChars_encodeChars : ∀ bs : List Nat, (∀ b ∈ bs, b < 256) →
    base64DecodeChars (base64EncodeChars bs) = some bs
  | [], _ => rfl
  | [b0], h => by
    have hb0 : b0 < 256 := h b0 (by simp)
    show base64DecodeChars [b64Char (b0 / 4), b64Char (b0 % 4 * 16), '=', '='] = some [b0]
    rw [base64DecodeChars]
    rw [b64Value_b64Char _ (by omega), b64Value_b64Char _ (by omega)]
    simp only []
    rw [if_pos (by omega)]
    congr 2
    omega
  | [b0, b1], h => by
    have hb0 : b0 < 256 := h b0 (by simp)
    have hb1 : b1 < 256 := h b1 (by simp)
    show base64DecodeChars
      [b64Char (b0 / 4), b64Char (b0 % 4 * 16 + b1 / 16), b64Char (b1 % 16 * 4), '='] =
      some [b0, b1]
    rw [base64DecodeChars]
    · rw [b64Value_b64Char _ (by omega), b64Value_b64Char _ (by omega),
        b64Value_b64Char _ (by omega)]
      simp only []
      rw [if_pos (by omega)]
      congr 1
      have e0 : b0 / 4 * 4 + (b0 % 4 * 16 + b1 / 16) / 16 = b0 := by omega
      have e1 : (b0 % 4 * 16 + b1 / 16) % 16 * 16 + b1 % 16 * 4 / 4 = b1 := by omega
      rw [e0, e1]
    · exact fun he => (b64Char_ok _).2.2 he
  | b0 :: b1 :: b2 :: rest, h => by
    have hb0 : b0 < 256 := h b0 (by simp)
    have hb1 : b1 < 256 := h b1 (by simp)
    have hb2 : b2 < 256 := h b2 (by simp)
    have ih := base64DecodeChars_encodeChars rest
      (fun b hb => h b (by simp [List.mem_cons] at hb ⊢; tauto))
    show base64DecodeChars (b64Char (b0 / 4) :: b64Char (b0 % 4 * 16 + b1 / 16) ::
      b64Char (b1 % 16 * 4 + b2 / 64) :: b64Char (b2 % 64) ::
      base64EncodeChars rest) = some (b0 :: b1 :: b2 :: rest)
    rw [base64DecodeChars_cons4 _ _ _ _ _ (b64Char_ok (b2 % 64)).2.2]
    rw [b64Value_b64Char _ (by omega), b64Value_b64Char _ (by omega),
      b64Value_b64Char _ (by omega), b64Value_b64Char _ (by omega), ih]
    simp only []
    congr 1
    have e0 : b0 / 4 * 4 + (b0 % 4 * 16 + b1 / 16) / 16 = b0 := by omega
    have e1 : (b0 % 4 * 16 + b1 / 16) % 16 * 16 + (b1 % 16 * 4 + b2 / 64) / 4 = b1 := by omega
    have e2 : (b1 % 16 * 4 + b2 / 64) % 4 * 64 + b2 % 64 = b2 := by omega
    rw [e0, e1, e2]

theorem base64EncodeChars_ok : ∀ bs : List Nat, ∀ c ∈ base64EncodeChars bs,
    isJsSpace c = false ∧ c ≠ '%'
  | [], c, hc => by simp [base64EncodeChars] at hc
  | [b0], c, hc => by
    simp only [base64EncodeChars, List.mem_cons, List.not_mem_nil, or_false] at hc
    rcases hc with rfl | rfl | rfl | rfl
    · exact ⟨(b64Char_ok _).1, (b64Char_ok _).2.1⟩
    · exact ⟨(b64Char_ok _).1, (b64Char_ok _).2.1⟩
    · exact ⟨by decide, by decide⟩
    · exact ⟨by decide, by decide⟩
  | [b0, b1], c, hc => by
    simp only [base64EncodeChars, List.mem_cons, List.not_mem_nil, or_false] at hc
    rcases hc with rfl | rfl | rfl | rfl
    · exact ⟨(b64Char_ok _).1, (b64Char_ok _).2.1⟩
    · exact ⟨(b64Char_ok _).1, (b64Char_ok _).2.1⟩
    · exact ⟨(b64Char_ok _).1, (b64Char_ok _).2.1⟩
    · exact ⟨by decide, by decide⟩
  | b0 :: b1 :: b2 :: rest, c, hc => by
    simp only [base64EncodeChars, List.mem_cons] at hc
    rcases hc with rfl | rfl | rfl | rfl | hmem
    · exact ⟨(b64Char_ok _).1, (b64Char_ok _).2.1⟩
    · exact ⟨(b64Char_ok _).1, (b64Char_ok _).2.1⟩
    · exact ⟨(b64Char_ok _).1, (b64Char_ok _).2.1⟩
    · exact ⟨(b64Char_ok _).1, (b64Char_ok _).2.1⟩
    · exact base64EncodeChars_ok rest c hmem

/-- Decoding the base64 text of a byte list recovers the bytes: the model of
`Buffer.from(buf.toString('base64'), 'base64').equals(buf)`. -/
theorem base64_round_trip (bs : List Nat) (h : ∀ b ∈ bs, b < 256) :
    base64Decode (base64Encode bs) = some bs :=
  base64DecodeChars_encodeChars bs h

theorem base64Encode_chars_ok (bs : List Nat) :
    ∀ c ∈ (base64Encode bs).data, isJsSpace c = false ∧ c ≠ '%' :=
  base64EncodeChars_ok bs

/-! ### jsTrim is the identity on whitespace-free strings -/

theorem dropWhile_eq_self_of (p : Char → Bool) (l : List Char)
    (h : ∀ c ∈ l, p c = false) : l.dropWhile p = l := by
  cases l with
  | nil => rfl
  | cons c cs =>
    rw [List.dropWhile_cons, h c (by simp)]
    simp only [Bool.false_eq_true, if_false]

theorem jsTrim_eq_self (s : String) (h : ∀ c ∈ s.data, isJsSpace c = false) :
    jsTrim s = s := by
  rw [jsTrim, dropWhile_eq_self_of _ _ h, dropWhile_eq_self_of, List.reverse_reverse]
  · intro c hc
    exact h c (List.mem_reverse.mp hc)

/-! ### Byte ranges of UTF-8 encodings -/

theorem utf8EncodeChar_mem (c : Char) (b : Nat) (hb : b ∈ utf8EncodeChar c) :
    (b = c.toNat ∧ c.toNat < 0x80) ∨ 0x80 ≤ b := by
  have hrange := char_range c
  simp only [utf8EncodeChar] at hb
  by_cases h1 : c.toNat < 0x80
  · rw [if_pos h1] at hb
    simp only [List.mem_cons, List.not_mem_nil, or_false] at hb
    exact Or.inl ⟨hb, h1⟩
  · rw [if_neg h1] at hb
    by_cases h2 : c.toNat < 0x800
    · rw [if_pos h2] at hb
      simp only [List.mem_cons, List.not_mem_nil, or_false] at hb
      rcases hb with rfl | rfl
      · right; omega
      · right; omega
    · rw [if_neg h2] at hb
      by_cases h3 : c.toNat < 0x10000
      · rw [if_pos h3] at hb
        simp only [List.mem_cons, List.not_mem_nil, or_false] at hb
        rcases hb with rfl | rfl | rfl
        · right; omega
        · right; omega
        · right; omega
      · rw [if_neg h3] at hb
        simp only [List.mem_cons, List.not_mem_nil, or_false] at hb
        rcases hb with rfl | rfl | rfl | rfl
        · right; omega
        · right; omega
        · right; omega
        · right; omega

theorem utf8EncodeChar_lt_256 (c : Char) (b : Nat) (hb : b ∈ utf8EncodeChar c) : b < 256 := by
  have hrange := char_range c
  simp only [utf8EncodeChar] at hb
  by_cases h1 : c.toNat < 0x80
  · rw [if_pos h1] at hb
    simp only [List.mem_cons, List.not_mem_nil, or_false] at hb
    omega
  · rw [if_neg h1] at hb
    by_cases h2 : c.toNat < 0x800
    · rw [if_pos h2] at hb
      simp only [List.mem_cons, List.not_mem_nil, or_false] at hb
      rcases hb with rfl | rfl
      · omega
      · omega
    · rw [if_neg h2] at hb
      by_cases h3 : c.toNat < 0x10000
      · rw [if_pos h3] at hb
        simp only [List.mem_cons, List.not_mem_nil, or_false] at hb
        rcases hb with rfl | rfl | rfl
        · omega
        · omega
        · omega
      · rw [if_neg h3] at hb
        simp only [List.mem_cons, List.not_mem_nil, or_false] at hb
        rcases hb with rfl | rfl | rfl | rfl
        · omega
        · omega
        · omega
        · omega

theorem utf8Bytes_lt_256 (s : String) (b : Nat) (hb : b ∈ utf8Bytes s) : b < 256 := by
  rw [utf8Bytes, List.mem_flatMap] at hb
  obtain ⟨c, _, hbc⟩ := hb
  exact utf8EncodeChar_lt_256 c b hbc

/-- Bytes of the UTF-8 encoding of a percent-free, whitespace-free string are
neither the marker lead byte 0x25 nor the newline 0x0a. -/
theorem utf8Bytes_no_special (s : String)
    (h : ∀ c ∈ s.data, isJsSpace c = false ∧ c ≠ '%') :
    ∀ b ∈ utf8Bytes s, b ≠ 0x25 ∧ b ≠ 0x0a := by
  intro b hb
  rw [utf8Bytes, List.mem_flatMap] at hb
  obtain ⟨c, hcs, hbc⟩ := hb
  rcases utf8EncodeChar_mem c b hbc with ⟨rfl, _⟩ | hge
  · constructor
    · intro he
      exact (h c hcs).2 (char_toNat_inj he)
    · intro he
      have hc : c = '\n' := char_toNat_inj he
      have := (h c hcs).1
      rw [hc] at this
      exact absurd this (by decide)
  · exact ⟨by omega, by omega⟩

/-! ### Locating the envelope marker: `lastIndexOf` and `indexOf` facts -/

theorem findRev_find (p : Nat → Bool) : ∀ n m : Nat, m ≤ n → p m = true →
    (∀ j, m < j → j ≤ n → p j = false) →
    (List.range (n + 1)).reverse.find? p = some m := by
  intro n
  induction n with
  | zero =>
    intro m hm hpm _
    interval_cases m
    exact List.find?_cons_of_pos _ hpm
  | succ n ih =>
    intro m hm hpm hafter
    have hrev : (List.range (n + 2)).reverse = (n + 1) :: (List.range (n + 1)).reverse := by
      rw [List.range_succ, List.reverse_append]
      rfl
    rw [hrev]
    by_cases he : m = n + 1
    · subst he
      exact List.find?_cons_of_pos _ hpm
    · have hfalse : p (n + 1) = false := hafter (n + 1) (by omega) (by omega)
      rw [List.find?_cons_of_neg _ (by simp [hfalse])]
      exact ih m (by omega) hpm (fun j h1 h2 => hafter j h1 (by omega))

theorem lastIndexOfSeq_eq (pat bs : List Nat) (m : Nat) (hm : m ≤ bs.length)
    (hpm : (bs.drop m).take pat.length = pat)
    (hafter : ∀ j, m < j → j ≤ bs.length → ¬ (bs.drop j).take pat.length = pat) :
    lastIndexOfSeq pat bs = some m := by
  rw [lastIndexOfSeq]
  exact findRev_find _ bs.length m hm (decide_eq_true hpm)
    (fun j h1 h2 => decide_eq_false (hafter j h1 h2))

theorem markerBytes_eq : utf8Bytes previewMarkerTag =
    [37, 37, 68, 111, 99, 117, 67, 104, 97, 105, 110, 80, 114, 101, 118, 105, 101, 119, 58] :=
  rfl

/-- The marker byte sequence occurs nowhere in `tag ++ ys` after position 0
when `ys` is free of its lead byte `%` (0x25): later tag positions mismatch the
tag's own characters, and every byte beyond it comes from `ys`. -/
theorem tagLit_no_later (ys : List Nat) (hys : ∀ b ∈ ys, b ≠ 37) :
    ∀ k, 1 ≤ k →
      ¬ ((([37, 37, 68, 111, 99, 117, 67, 104, 97, 105, 110, 80, 114, 101, 118, 105, 101,
            119, 58] ++ ys).drop k).take 19 =
          [37, 37, 68, 111, 99, 117, 67, 104, 97, 105, 110, 80, 114, 101, 118, 105, 101,
            119, 58]) := by
  intro k hk
  rcases Nat.lt_or_ge k 19 with hlt | hge
  · interval_cases k
    all_goals
      intro h
      simp at h
  · intro h
    have hlen : ([37, 37, 68, 111, 99, 117, 67, 104, 97, 105, 110, 80, 114, 101, 118, 105,
        101, 119, 58] : List Nat).length = 19 := rfl
    have he : k = ([37, 37, 68, 111, 99, 117, 67, 104, 97, 105, 110, 80, 114, 101, 118, 105,
        101, 119, 58] : List Nat).length + (k - 19) := by
      rw [hlen]
      omega
    rw [he, List.drop_append] at h
    cases hd : ys.drop (k - 19) with
    | nil =>
      rw [hd] at h
      simp at h
    | cons a t =>
      rw [hd] at h
      have h0 := congrArg (fun l => l[0]?) h
      simp only [List.getElem?_take] at h0
      rw [if_pos (by omega)] at h0
      simp only [List.getElem?_cons_zero] at h0
      have ha : a = 37 := by
        simpa using h0
      have hmem : a ∈ ys := List.mem_of_mem_drop (hd ▸ List.mem_cons_self a t)
      exact hys a hmem (by omega)

theorem findIdx?_no_hit_append (a : Nat) (zs : List Nat) :
    ∀ (xs : List Nat) (i : Nat), (∀ x ∈ xs, x ≠ a) →
      List.findIdx? (fun x => x = a) (xs ++ a :: zs) i = some (i + xs.length) := by
  intro xs
  induction xs with
  | nil =>
    intro i _
    rw [List.nil_append, List.findIdx?]
    simp
  | cons x xs ih =>
    intro i hxs
    rw [List.cons_append, List.findIdx?]
    rw [if_neg (by simp [hxs x (by simp)])]
    rw [ih (i + 1) (fun y hy => hxs y (by simp [hy]))]
    simp only [List.length_cons, Option.some.injEq]
    omega

theorem lastIndexOfSeq_attach_buffer (pdf : List Nat) (enc : String)
    (henc : ∀ c ∈ enc.data, isJsSpace c = false ∧ c ≠ '%') :
    lastIndexOfSeq (utf8Bytes previewMarkerTag)
      (pdf ++ 0x0a :: (utf8Bytes previewMarkerTag ++ (utf8Bytes enc ++ [0x0a]))) =
      some (pdf.length + 1) := by
  have hys : ∀ b ∈ utf8Bytes enc ++ [(0x0a : Nat)], b ≠ 37 := by
    intro b hb
    rcases List.mem_append.mp hb with hb | hb
    · exact (utf8Bytes_no_special enc henc b hb).1
    · simp only [List.mem_cons, List.not_mem_nil, or_false] at hb
      omega
  have hA : (pdf ++ [(0x0a : Nat)]).length = pdf.length + 1 := by simp
  have hlen : (utf8Bytes previewMarkerTag).length = 19 := rfl
  apply lastIndexOfSeq_eq
  · simp only [List.length_append, List.length_cons]
    omega
  · rw [List.append_cons, ← hA, List.drop_left, List.take_left]
  · intro j h1 h2 h3
    rw [List.append_cons] at h3
    have he : j = (pdf ++ [(0x0a : Nat)]).length + (j - (pdf.length + 1)) := by
      rw [hA]
      omega
    rw [he, List.drop_append, hlen, markerBytes_eq] at h3
    exact tagLit_no_later _ hys (j - (pdf.length + 1)) (by omega) h3

theorem drop_attach_buffer (pdf : List Nat) (enc : String) :
    (pdf ++ 0x0a :: (utf8Bytes previewMarkerTag ++ (utf8Bytes enc ++ [0x0a]))).drop
      (pdf.length + 1 + (utf8Bytes previewMarkerTag).length) =
      utf8Bytes enc ++ [0x0a] := by
  rw [List.append_cons, ← List.append_assoc]
  have hA : ((pdf ++ [(0x0a : Nat)]) ++ utf8Bytes previewMarkerTag).length =
      pdf.length + 1 + (utf8Bytes previewMarkerTag).length := by
    simp
    omega
  rw [← hA, List.drop_left]

theorem byteIndexFrom_attach_buffer (pdf : List Nat) (enc : String)
    (henc : ∀ c ∈ enc.data, isJsSpace c = false ∧ c ≠ '%') :
    byteIndexFrom 0x0a (pdf.length + 1 + (utf8Bytes previewMarkerTag).length)
      (pdf ++ 0x0a :: (utf8Bytes previewMarkerTag ++ (utf8Bytes enc ++ [0x0a]))) =
      some (pdf.length + 1 + (utf8Bytes previewMarkerTag).length + (utf8Bytes enc).length) := by
  rw [byteIndexFrom, drop_attach_buffer pdf enc]
  rw [findIdx?_no_hit_append 0x0a [] (utf8Bytes enc) 0
    (fun x hx => by
      intro hx10
      have := (utf8Bytes_no_special enc henc x hx).2
      omega)]
  simp

theorem getD_attach_buffer_boundary (pdf : List Nat) (enc : String) :
    (pdf ++ 0x0a :: (utf8Bytes previewMarkerTag ++ (utf8Bytes enc ++ [0x0a]))).getD
      pdf.length 0 = 0x0a := by
  rw [List.getD_eq_getElem?_getD, List.getElem?_append]
  rw [if_neg (by omega)]
  rw [Nat.sub_self, List.getElem?_cons_zero]
  rfl

theorem getD_attach_buffer_inside (pdf : List Nat) (enc : String) (i : Nat)
    (hi : i < pdf.length) :
    (pdf ++ 0x0a :: (utf8Bytes previewMarkerTag ++ (utf8Bytes enc ++ [0x0a]))).getD i 0 =
      pdf.getD i 0 := by
  rw [List.getD_eq_getElem?_getD, List.getElem?_append, if_pos hi,
    ← List.getD_eq_getElem?_getD]

theorem take_attach_buffer (pdf : List Nat) (enc : String) (n : Nat) (hn : n ≤ pdf.length) :
    (pdf ++ 0x0a :: (utf8Bytes previewMarkerTag ++ (utf8Bytes enc ++ [0x0a]))).take n =
      pdf.take n := by
  rw [List.take_append_eq_append_take]
  rw [show n - pdf.length = 0 from by omega]
  rw [List.take_zero, List.append_nil]

set_option maxHeartbeats 2000000 in
/-- Anatomy of extraction on a buffer of the exact shape `attachPreviewEnvelope`
produces, for any whitespace-free, percent-free payload text `enc`: the marker
is found right after the appended newline, the payload slice is the byte range
up to the trailing newline, and the result depends on whether the payload
decodes; the original bytes are returned whole on decode failure, and otherwise
truncated before the marker with one extra byte removed for a trailing CR. -/
theorem extractPreviewEnvelope_marker_append (pdf : List Nat) (enc : String)
    (henc : ∀ c ∈ enc.data, isJsSpace c = false ∧ c ≠ '%') :
    extractPreviewEnvelope
      (pdf ++ 0x0a :: (utf8Bytes previewMarkerTag ++ (utf8Bytes enc ++ [0x0a]))) =
      match (base64Decode enc).bind (fun bytes => jsonParse (utf8Decode bytes)) with
      | none =>
        { envelope := none
          unsignedBuffer :=
            pdf ++ 0x0a :: (utf8Bytes previewMarkerTag ++ (utf8Bytes enc ++ [0x0a])) }
      | some e =>
        { envelope := some e
          unsignedBuffer :=
            if 0 < pdf.length && pdf.getD (pdf.length - 1) 0 = 0x0d
            then pdf.take (pdf.length - 1) else pdf } := by
  have hlast := lastIndexOfSeq_attach_buffer pdf enc henc
  have hfind := byteIndexFrom_attach_buffer pdf enc henc
  rw [extractPreviewEnvelope.eq_def]
  simp only []
  rw [hlast]
  simp only []
  rw [hfind, Option.getD_some]
  rw [show pdf.length + 1 + (utf8Bytes previewMarkerTag).length + (utf8Bytes enc).length -
    (pdf.length + 1 + (utf8Bytes previewMarkerTag).length) = (utf8Bytes enc).length from by
      omega]
  rw [drop_attach_buffer pdf enc]
  rw [List.take_left' rfl]
  rw [utf8_round_trip enc, jsTrim_eq_self enc (fun c hc => (henc c hc).1)]
  cases hdec : (base64Decode enc).bind (fun bytes => jsonParse (utf8Decode bytes)) with
  | none => rfl
  | some e =>
    simp only []
    rw [show pdf.length + 1 - 1 = pdf.length from rfl]
    rw [getD_attach_buffer_boundary pdf enc]
    rw [show (decide (0 < pdf.length + 1) && decide ((10 : Nat) = 10)) = true from by simp]
    rw [if_pos rfl]
    by_cases hp : pdf.length = 0
    · have hnil : pdf = [] := List.eq_nil_of_length_eq_zero hp
      subst hnil
      simp
    · rw [getD_attach_buffer_inside pdf enc (pdf.length - 1) (by omega)]
      by_cases hcr : pdf.getD (pdf.length - 1) 0 = 13
      · rw [show (decide (0 < pdf.length) &&
          decide (pdf.getD (pdf.length - 1) 0 = (13 : Nat))) = true from by
            rw [decide_eq_true (show (0 : Nat) < pdf.length from by omega),
              decide_eq_true hcr]
            rfl]
        rw [if_pos rfl, if_pos rfl]
        rw [take_attach_buffer pdf enc (pdf.length - 1) (by omega)]
      · rw [show (decide (0 < pdf.length) &&
          decide (pdf.getD (pdf.length - 1) 0 = (13 : Nat))) = false from by
            rw [decide_eq_false hcr, Bool.and_false]]
        rw [if_neg (show ¬(false = true) from by simp),
          if_neg (show ¬(false = true) from by simp)]
        rw [take_attach_buffer pdf enc pdf.length (Nat.le_refl _), List.take_length]

theorem utf8Bytes_append (a b : String) : utf8Bytes (a ++ b) = utf8Bytes a ++ utf8Bytes b := by
  rw [utf8Bytes, utf8Bytes, utf8Bytes, String.data_append, List.flatMap_append]

theorem attach_buffer_shape (pdf : List Nat) (md : List (String × Jv))
    (secret : Option String) (ts : String) :
    (attachPreviewEnvelope pdf md secret ts).buffer =
      pdf ++ 0x0a :: (utf8Bytes previewMarkerTag ++
        (utf8Bytes (attachPreviewEnvelope pdf md secret ts).encodedEnvelope ++ [0x0a])) := by
  simp only [attachPreviewEnvelope]
  rw [utf8Bytes_append, utf8Bytes_append, utf8Bytes_append]
  rw [show utf8Bytes "\n" = [(0x0a : Nat)] from rfl]
  simp [List.append_assoc]

theorem decode_encode_envelope (env : List (String × Jv)) :
    (base64Decode (base64Encode (utf8Bytes ((jsonStringify (.obj env)).getD "")))).bind
      (fun bytes => jsonParse (utf8Decode bytes)) = some (.obj (normEntries env)) := by
  have hjs := jsonParse_jsonStringify (.obj env) (.obj (normEntries env)) rfl
  rw [hjs.1, Option.getD_some]
  rw [base64_round_trip _ (utf8Bytes_lt_256 _)]
  rw [Option.some_bind, utf8_round_trip, hjs.2]

theorem attach_decode (pdf : List Nat) (md : List (String × Jv))
    (secret : Option String) (ts : String) :
    (base64Decode (attachPreviewEnvelope pdf md secret ts).encodedEnvelope).bind
      (fun bytes => jsonParse (utf8Decode bytes)) =
      some (.obj (normEntries (attachPreviewEnvelope pdf md secret ts).envelope)) := by
  simp only [attachPreviewEnvelope]
  exact decode_encode_envelope _

/-- What extraction returns on an attach-produced buffer, for every input:
the parsed (normalized) envelope, and the original bytes — except that a
trailing CR of the original is swallowed by the CRLF trim. -/
theorem extract_attach (pdf : List Nat) (md : List (String × Jv))
    (secret : Option String) (ts : String) :
    extractPreviewEnvelope (attachPreviewEnvelope pdf md secret ts).buffer =
      { envelope := some (.obj (normEntries (attachPreviewEnvelope pdf md secret ts).envelope))
        unsignedBuffer :=
          if 0 < pdf.length && pdf.getD (pdf.length - 1) 0 = 0x0d
          then pdf.take (pdf.length - 1) else pdf } := by
  have henc : ∀ c ∈ (attachPreviewEnvelope pdf md secret ts).encodedEnvelope.data,
      isJsSpace c = false ∧ c ≠ '%' := by
    simp only [attachPreviewEnvelope]
    exact base64Encode_chars_ok _
  rw [attach_buffer_shape]
  rw [extractPreviewEnvelope_marker_append pdf _ henc]
  rw [attach_decode pdf md secret ts]

theorem attach_envelope_content_hash (pdf : List Nat) (md : List (String × Jv))
    (secret : Option String) (ts : String) :
    jvGet (.obj (normEntries (attachPreviewEnvelope pdf md secret ts).envelope))
      "content_hash" = some (.str (sha256Hex pdf)) := by
  cases secret <;> rfl

theorem getD_last_ne (pdf : List Nat) (hcr : pdf.getLast? ≠ some 0x0d)
    (hp : pdf.length ≠ 0) : pdf.getD (pdf.length - 1) 0 ≠ 0x0d := by
  rw [List.getD_eq_getElem?_getD, ← List.getLast?_eq_getElem?]
  cases h : pdf.getLast? with
  | none =>
    rw [List.getLast?_eq_none_iff] at h
    subst h
    simp at hp
  | some a =>
    intro ha
    simp only [Option.getD_some] at ha
    subst ha
    exact hcr h

/-- C2, amended.  When the unsigned bytes do not end in a carriage return,
extraction of an attach-produced buffer recovers them exactly, together with
an envelope whose `content_hash` is the SHA-256 hex digest of those bytes. -/
theorem envelope_round_trip_modulo_cr (pdf : List Nat) (md : List (String × Jv))
    (secret : Option String) (ts : String) (hcr : pdf.getLast? ≠ some 0x0d) :
    (extractPreviewEnvelope (attachPreviewEnvelope pdf md secret ts).buffer).unsignedBuffer
        = pdf ∧
      ∃ env,
        (extractPreviewEnvelope (attachPreviewEnvelope pdf md secret ts).buffer).envelope
            = some env ∧
          jvGet env "content_hash" = some (.str (sha256Hex pdf)) := by
  rw [extract_attach]
  refine ⟨?_, _, rfl, attach_envelope_content_hash pdf md secret ts⟩
  by_cases hp : pdf.length = 0
  · rw [if_neg (by simp [hp])]
  · rw [if_neg (by
      simp only [Bool.and_eq_true, decide_eq_true_eq, not_and]
      intro _
      exact getD_last_ne pdf hcr hp)]

theorem envelope_round_trip_modulo_cr_witness :
    ([0x25] : List Nat).getLast? ≠ some 0x0d ∧
      ((extractPreviewEnvelope (attachPreviewEnvelope [0x25] [] none "t").buffer).unsignedBuffer
          = [0x25] ∧
        ∃ env,
          (extractPreviewEnvelope (attachPreviewEnvelope [0x25] [] none "t").buffer).envelope
              = some env ∧
            jvGet env "content_hash" = some (.str (sha256Hex [0x25]))) :=
  ⟨by decide, envelope_round_trip_modulo_cr [0x25] [] none "t" (by decide)⟩

/-- A buffer ending in a carriage return does not round-trip: the CRLF trim
of `extractPreviewEnvelope` swallows the final CR, so the unsigned bytes come
back one byte short of the attach input. -/
theorem envelope_round_trip_cr_counterexample :
    (extractPreviewEnvelope (attachPreviewEnvelope [0x0d] [] none "t").buffer).unsignedBuffer
      ≠ [0x0d] := by
  rw [extract_attach]
  simp

/-- C9: extraction is total and degrades instead of raising.  With no marker
occurrence it returns no envelope and the input bytes unchanged; with a marker
whose payload fails base64 or JSON decoding (any whitespace-free, percent-free
payload text), the failure is non-fatal and the input bytes likewise come back
unchanged with no envelope. -/
theorem extract_total_degrades :
    (∀ bs : List Nat, lastIndexOfSeq (utf8Bytes previewMarkerTag) bs = none →
        extractPreviewEnvelope bs = { envelope := none, unsignedBuffer := bs }) ∧
    (∀ (pdf : List Nat) (enc : String),
        (∀ c ∈ enc.data, isJsSpace c = false ∧ c ≠ '%') →
        (base64Decode enc).bind (fun bytes => jsonParse (utf8Decode bytes)) = none →
        extractPreviewEnvelope
            (pdf ++ 0x0a :: (utf8Bytes previewMarkerTag ++ (utf8Bytes enc ++ [0x0a]))) =
          { envelope := none
            unsignedBuffer :=
              pdf ++ 0x0a :: (utf8Bytes previewMarkerTag ++ (utf8Bytes enc ++ [0x0a])) }) := by
  constructor
  · intro bs h
    rw [extractPreviewEnvelope.eq_def]
    simp only []
    rw [h]
  · intro pdf enc henc hdec
    rw [extractPreviewEnvelope_marker_append pdf enc henc, hdec]

theorem extract_total_degrades_witness :
    (extractPreviewEnvelope [1, 2, 3] = { envelope := none, unsignedBuffer := [1, 2, 3] }) ∧
      (extractPreviewEnvelope
          ([] ++ 0x0a :: (utf8Bytes previewMarkerTag ++ (utf8Bytes "!!!!" ++ [0x0a]))) =
        { envelope := none
          unsignedBuffer :=
            [] ++ 0x0a :: (utf8Bytes previewMarkerTag ++ (utf8Bytes "!!!!" ++ [0x0a])) }) :=
  ⟨extract_total_degrades.1 [1, 2, 3] (by decide),
   extract_total_degrades.2 [] "!!!!" (by decide) (by decide)⟩

/-! ### Sign-time HMAC verification facts -/

theorem compress_length (hs block : List Nat) : (compress hs block).length = 8 := rfl

theorem foldl_compress_length : ∀ (l : List (List Nat)) (hs : List Nat), hs.length = 8 →
    (l.foldl compress hs).length = 8
  | [], hs, h => h
  | b :: l, hs, _ => by
    rw [List.foldl_cons]
    exact foldl_compress_length l (compress hs b) (compress_length hs b)

theorem sha256Words_length (msg : List Nat) : (sha256Words msg).length = 8 := by
  rw [sha256Words]
  exact foldl_compress_length _ _ rfl

theorem sha256Hex_ne_empty (msg : List Nat) : sha256Hex msg ≠ "" := by
  intro h
  have hdata : ((sha256Words msg).flatMap wordHex).length = 0 := by
    have := congrArg (fun s => s.data.length) h
    simpa [sha256Hex] using this
  rw [List.length_flatMap] at hdata
  have hlen := sha256Words_length msg
  cases hw : sha256Words msg with
  | nil => rw [hw] at hlen; simp at hlen
  | cons w rest =>
    rw [hw] at hdata
    simp [wordHex] at hdata

theorem hmacSha256Hex_ne_empty (key msg : List Nat) : hmacSha256Hex key msg ≠ "" := by
  intro h
  exact sha256Hex_ne_empty _ h

theorem normEntries_append : ∀ xs ys : List (String × Jv),
    normEntries (xs ++ ys) = normEntries xs ++ normEntries ys
  | [], ys => rfl
  | (k, v) :: xs, ys => by
    rw [List.cons_append, normEntries, normEntries]
    cases h : normJv v with
    | none => exact normEntries_append xs ys
    | some w => rw [List.cons_append, normEntries_append xs ys]

theorem hmacStep_missing_secret (env : Jv) (h : jvTruthy (jvGet env "hmac") = true) :
    signHmacStep none env = some .hmacSecretMissing := by
  rw [signHmacStep, if_pos h]

theorem hmacStep_mismatch (env : Jv) (secret h : String)
    (hget : jvGet env "hmac" = some (.str h)) (hne : h ≠ "")
    (hbad : h ≠ hmacSha256Hex (utf8Bytes secret)
      (utf8Bytes (deterministicStringifyD (jvRemoveField env "hmac")))) :
    signHmacStep (some secret) env = some .hmacMismatch := by
  rw [signHmacStep, hget]
  rw [if_pos (by simp [jvTruthy, jvTruthyV, hne])]
  simp only []
  rw [if_neg hbad]

theorem jvGet_obj (fs : List (String × Jv)) (k : String) :
    jvGet (.obj fs) k = jvGetField fs k := rfl

theorem jvRemoveField_obj (fs : List (String × Jv)) (k : String) :
    jvRemoveField (.obj fs) k = .obj (fs.filter (fun p => p.1 ≠ k)) := rfl

theorem jvGetField_append_last : ∀ (xs : List (String × Jv)) (k : String) (v : Jv),
    jvGetField (xs ++ [(k, v)]) k = some v
  | [], k, v => by simp [jvGetField]
  | (k1, w) :: xs, k, v => by
    rw [List.cons_append, jvGetField, jvGetField_append_last xs k v]

theorem filter_ne_append_last (xs : List (String × Jv)) (k : String) (v : Jv)
    (hxs : ∀ p ∈ xs, p.1 ≠ k) :
    (xs ++ [(k, v)]).filter (fun p => p.1 ≠ k) = xs := by
  induction xs with
  | nil => simp
  | cons p xs ih =>
    rw [List.cons_append, List.filter_cons]
    rw [if_pos (by simp [hxs p (by simp)])]
    rw [ih (fun q hq => hxs q (by simp [hq]))]

/-- The HMAC recomputation of `signDocument` agrees with attach-time HMAC
issuance whenever the envelope body normalizes to itself (pure JSON data) and
holds no own `hmac` key, so the check passes. -/
theorem hmacStep_pass_generic (secret : String) (base : List (String × Jv))
    (hkeys : ∀ p ∈ base, p.1 ≠ "hmac") (hnorm : normEntries base = base) :
    signHmacStep (some secret)
      (.obj (normEntries (base ++ [("hmac",
        .str (hmacSha256Hex (utf8Bytes secret)
          (utf8Bytes (deterministicStringifyD (.obj base)))))]))) = none := by
  rw [normEntries_append, hnorm]
  rw [show ∀ s, normEntries [("hmac", Jv.str s)] = [("hmac", Jv.str s)] from fun s => rfl]
  rw [signHmacStep, jvGet_obj, jvGetField_append_last]
  rw [if_pos (by simp [jvTruthy, jvTruthyV, hmacSha256Hex_ne_empty])]
  simp only []
  rw [jvRemoveField_obj, filter_ne_append_last base _ _ hkeys]
  rw [if_pos rfl]

/-- The extracted envelope of an attach-produced buffer (secret configured,
metadata free of `undefined` values) passes the sign-time HMAC check. -/
theorem attach_hmac_passes (pdf : List Nat) (md : List (String × Jv)) (secret ts : String)
    (hmd : jvEntriesNoUndef md = true) :
    ∀ env, (extractPreviewEnvelope
        (attachPreviewEnvelope pdf md (some secret) ts).buffer).envelope = some env →
      signHmacStep (some secret) env = none := by
  intro env henv
  rw [extract_attach] at henv
  have henv2 : some (Jv.obj (normEntries
      (attachPreviewEnvelope pdf md (some secret) ts).envelope)) = some env := henv
  injection henv2 with henv3
  subst henv3
  simp only [attachPreviewEnvelope]
  apply hmacStep_pass_generic
  · intro p hp
    simp only [List.mem_cons, List.not_mem_nil, or_false] at hp
    rcases hp with rfl | rfl | rfl | rfl | rfl | rfl <;> simp
  · apply normEntries_id
    simp [jvEntriesNoUndef, jvNoUndef, hmd]

/-- `signDocument` on a buffer embedding any envelope object whose stored
`hmac` string disagrees with the recomputation rejects with the HMAC verdict —
reached before the content and metadata hash comparisons. -/
theorem sign_embedded_bad_hmac (secret : String) (pdf : List Nat)
    (fs : List (String × Jv)) (hm : String)
    (hget : jvGet (.obj (normEntries fs)) "hmac" = some (.str hm))
    (hne : hm ≠ "")
    (hbad : hm ≠ hmacSha256Hex (utf8Bytes secret)
      (utf8Bytes (deterministicStringifyD (jvRemoveField (.obj (normEntries fs)) "hmac")))) :
    signDocumentCheck (some secret)
      (pdf ++ 0x0a :: (utf8Bytes previewMarkerTag ++
        (utf8Bytes (base64Encode (utf8Bytes ((jsonStringify (.obj fs)).getD ""))) ++ [0x0a])))
      none = .hmacMismatch := by
  have hext := extractPreviewEnvelope_marker_append pdf
    (base64Encode (utf8Bytes ((jsonStringify (.obj fs)).getD "")))
    (base64Encode_chars_ok _)
  rw [decode_encode_envelope fs] at hext
  rw [signDocumentCheck.eq_def]
  simp only [hext, Option.none_bind]
  rw [if_neg (by simp [jvTruthyV])]
  rw [hmacStep_mismatch _ secret hm hget hne hbad]

/-- C3: the sign-time HMAC protocol.  (1) An envelope with a truthy `hmac`
field is rejected as `hmacSecretMissing` when no server secret is configured.
(2) With a secret, the HMAC is recomputed over the deterministic encoding of
the envelope with `hmac` removed, and any stored value differing from it is
rejected as `hmacMismatch`.  (3) A buffer embedding a secret-signed envelope
whose metadata object was altered after issuance (hashes and `hmac` kept) is
rejected by the full `signDocument` check as `hmacMismatch` — an
authentication failure, reached before the content and metadata hash
comparisons — under the collision-resistance hypothesis that the issued HMAC
differs from the one recomputed over the altered envelope.  (4) The envelope
extracted from an unaltered attach-produced buffer with the same secret
passes the HMAC check. -/
theorem hmac_sign_protocol :
    (∀ env : Jv, jvTruthy (jvGet env "hmac") = true →
        signHmacStep none env = some .hmacSecretMissing) ∧
    (∀ (env : Jv) (secret h : String), jvGet env "hmac" = some (.str h) → h ≠ "" →
        h ≠ hmacSha256Hex (utf8Bytes secret)
          (utf8Bytes (deterministicStringifyD (jvRemoveField env "hmac"))) →
        signHmacStep (some secret) env = some .hmacMismatch) ∧
    (∀ (pdf : List Nat) (md md2 : List (String × Jv)) (secret ts hm : String),
        hm = hmacSha256Hex (utf8Bytes secret) (utf8Bytes (deterministicStringifyD (.obj
          [("version", Jv.num 1), ("algorithm", Jv.str "sha256"),
           ("content_hash", Jv.str (hashBuffer pdf)),
           ("metadata_hash", Jv.str (hashMetadata md)),
           ("metadata", Jv.obj md), ("timestamp", Jv.str ts)]))) →
        hm ≠ hmacSha256Hex (utf8Bytes secret) (utf8Bytes (deterministicStringifyD
          (jvRemoveField (.obj (normEntries
            [("version", Jv.num 1), ("algorithm", Jv.str "sha256"),
             ("content_hash", Jv.str (hashBuffer pdf)),
             ("metadata_hash", Jv.str (hashMetadata md)),
             ("metadata", Jv.obj md2), ("timestamp", Jv.str ts),
             ("hmac", Jv.str hm)])) "hmac"))) →
        signDocumentCheck (some secret)
          (pdf ++ 0x0a :: (utf8Bytes previewMarkerTag ++
            (utf8Bytes (base64Encode (utf8Bytes ((jsonStringify (.obj
              [("version", Jv.num 1), ("algorithm", Jv.str "sha256"),
               ("content_hash", Jv.str (hashBuffer pdf)),
               ("metadata_hash", Jv.str (hashMetadata md)),
               ("metadata", Jv.obj md2), ("timestamp", Jv.str ts),
               ("hmac", Jv.str hm)])).getD ""))) ++ [0x0a])))
          none = .hmacMismatch) ∧
    (∀ (pdf : List Nat) (md : List (String × Jv)) (secret ts : String),
        jvEntriesNoUndef md = true →
        ∀ env, (extractPreviewEnvelope
            (attachPreviewEnvelope pdf md (some secret) ts).buffer).envelope = some env →
          signHmacStep (some secret) env = none) := by
  refine ⟨hmacStep_missing_secret, hmacStep_mismatch, ?_, attach_hmac_passes⟩
  intro pdf md md2 secret ts hm hiss hbad
  subst hiss
  exact sign_embedded_bad_hmac secret pdf _ _ rfl (hmacSha256Hex_ne_empty _ _) hbad

theorem hmac_sign_protocol_witness :
    signHmacStep none (Jv.obj [("hmac", Jv.str "x")]) = some .hmacSecretMissing ∧
      signHmacStep (some "k") (Jv.obj [("hmac", Jv.str "x")]) = some .hmacMismatch :=
  ⟨hmac_sign_protocol.1 _ (by decide),
   hmac_sign_protocol.2.1 _ "k" "x" (by decide) (by decide) (by decide)⟩
